import Mathlib

/-!
Shallow embedding of the text segmentation and metadata-enrichment engine of
the RAG_Python_Service repository (`app/utils/chunking.py` and
`app/utils/syllabus_parser.py`), together with theorems settling the frozen
claims about it.

Strings are modelled as `List Char` (`Str`).  Python string semantics used by
the source are embedded directly: `str.strip` (`pyStrip`), `str.split('\n')`
(`splitNl`), slicing (`pySlice`), substring tests, and the `re` module.  The
`re` patterns that appear in the source are embedded via a small backtracking
engine (`Rx` / `mtch`) whose outcome lists are ordered exactly like Python's
backtracking priority (leftmost match, alternatives in written order, greedy
quantifiers longest-first, lazy quantifiers shortest-first).  Whitespace is
modelled over the ASCII whitespace set (the inputs the claims are about are
ASCII apart from box-drawing glyphs and the en dash, which are handled as
ordinary characters, matching Python).

Note on the source: `chunking.py` defines `chunk_by_semantic_sections`,
`chunk_text` and `chunk_by_sentences` twice; in Python the second definition
of each name shadows the first, so the embedding below follows the second
(effective) definitions (lines 314-482 of the file).
-/

abbrev Str := List Char

/-- Python/regex whitespace, restricted to the ASCII whitespace characters. -/
def wsB (c : Char) : Bool :=
  c = ' ' || c = '\t' || c = '\n' || c = '\r' || c = '\x0b' || c = '\x0c'

/-- `str.strip()`: drop whitespace from both ends. -/
def pyStrip (l : Str) : Str :=
  ((l.dropWhile wsB).reverse.dropWhile wsB).reverse

/-- `text.split('\n')`: Python semantics (keeps empty pieces, `"" → [""]`). -/
def splitNl : Str → List Str
  | [] => [[]]
  | c :: t =>
    if c = '\n' then [] :: splitNl t
    else
      match splitNl t with
      | [] => [[c]]
      | h :: r => (c :: h) :: r

/-- `'\n'.join(lines)`. -/
def joinNl (ls : List Str) : Str := (ls.intersperse ['\n']).flatten

/-! ## A small backtracking regex engine

Quantifiers are restricted to single-character classes, which covers every
pattern occurring in the source.  `mtch` returns all ways to match a prefix of
the input, in Python's backtracking priority order, as
`(consumed, rest, captures)` triples. -/

abbrev Caps := List (Nat × Str)

inductive Rx where
  | eps
  | cls (p : Char → Bool)
  | alt (a b : Rx)
  | seq (a b : Rx)
  | opt (a : Rx)
  | star (p : Char → Bool)
  | starL (p : Char → Bool)
  | plus (p : Char → Bool)
  | plusL (p : Char → Bool)
  | grp (n : Nat) (a : Rx)
  | bolM
  | eolM
  | bolS
  | eolS

/-- Split off the maximal run of characters satisfying `p`. -/
def runSplit (p : Char → Bool) : Str → Str × Str
  | [] => ([], [])
  | c :: t =>
    if p c then
      let (r, s) := runSplit p t
      (c :: r, s)
    else ([], c :: t)

/-- Outcomes of a character-class quantifier: all run prefixes, greedy order
(longest first) or lazy order (shortest first), optionally requiring at least
one character. -/
def starOuts (p : Char → Bool) (rest : Str) (lazy atLeastOne : Bool) :
    List (Str × Str × Caps) :=
  let (run, r2) := runSplit p rest
  let ks := (List.range (run.length + 1)).map
    (fun d => if lazy then d else run.length - d)
  let ks := if atLeastOne then ks.filter (fun k => 0 < k) else ks
  ks.map (fun k => (run.take k, run.drop k ++ r2, []))

/-- The character preceding the position after consuming `consumed`. -/
def newPrev (prev : Option Char) (consumed : Str) : Option Char :=
  match consumed.getLast? with
  | some c => some c
  | none => prev

/-- All matches of `r` at the current position (`prev` = preceding character,
`rest` = remaining input), in backtracking priority order. -/
def mtch : Rx → Option Char → Str → List (Str × Str × Caps)
  | .eps, _, rest => [([], rest, [])]
  | .cls p, _, rest =>
    match rest with
    | [] => []
    | c :: t => if p c then [([c], t, [])] else []
  | .alt a b, prev, rest => mtch a prev rest ++ mtch b prev rest
  | .opt a, prev, rest => mtch a prev rest ++ [([], rest, [])]
  | .seq a b, prev, rest =>
    (mtch a prev rest).flatMap (fun o1 =>
      (mtch b (newPrev prev o1.1) o1.2.1).map
        (fun o2 => (o1.1 ++ o2.1, o2.2.1, o1.2.2 ++ o2.2.2)))
  | .star p, _, rest => starOuts p rest false false
  | .starL p, _, rest => starOuts p rest true false
  | .plus p, _, rest => starOuts p rest false true
  | .plusL p, _, rest => starOuts p rest true true
  | .grp n a, prev, rest =>
    (mtch a prev rest).map (fun o => (o.1, o.2.1, (n, o.1) :: o.2.2))
  | .bolM, prev, rest =>
    if prev = none ∨ prev = some '\n' then [([], rest, [])] else []
  | .bolS, prev, rest => if prev = none then [([], rest, [])] else []
  | .eolM, _, rest =>
    if rest = [] ∨ rest.head? = some '\n' then [([], rest, [])] else []
  | .eolS, _, rest =>
    if rest = [] ∨ rest = ['\n'] then [([], rest, [])] else []

/-- Leftmost search: returns `(gap, consumed, rest, captures)` for the first
position at which `r` matches, scanning left to right as `re.search` does. -/
def searchFrom (r : Rx) : Option Char → Str → Option (Str × Str × Str × Caps)
  | prev, rest =>
    match mtch r prev rest with
    | o :: _ => some ([], o)
    | [] =>
      match rest with
      | [] => none
      | c :: t =>
        (searchFrom r (some c) t).map (fun o => (c :: o.1, o.2))

/-- `re.search(r, s)` from the start of the string. -/
def reSearch (r : Rx) (s : Str) : Option (Str × Str × Str × Caps) :=
  searchFrom r none s

/-- `m.group(n)` of the first match, if any. -/
def searchGroup (r : Rx) (s : Str) (n : Nat) : Option Str :=
  (reSearch r s).bind (fun o => (o.2.2.2.find? (fun g => g.1 = n)).map (·.2))

/-- `re.sub(r, repl, s)`: replace every non-overlapping match, scanning left
to right.  The fuel bounds the number of replacements; the wrappers pass
`s.length + 1`, which is enough for the non-nullable patterns of the source. -/
def subAllF (fuel : Nat) (r : Rx) (repl : Str) (prev : Option Char) (s : Str) :
    Str :=
  match fuel with
  | 0 => s
  | fuel + 1 =>
    match searchFrom r prev s with
    | none => s
    | some (pre, c, rest, _) =>
      pre ++ repl ++ subAllF fuel r repl (newPrev (newPrev prev pre) c) rest

def subAllT (r : Rx) (repl : Str) (s : Str) : Str :=
  subAllF (s.length + 1) r repl none s

/-- `re.split('(pattern)', s)`: pieces between matches interleaved with the
matches themselves (the capture group is the whole pattern in the source). -/
def pySplitCapF (fuel : Nat) (r : Rx) (prev : Option Char) (s : Str) :
    List Str :=
  match fuel with
  | 0 => [s]
  | fuel + 1 =>
    match searchFrom r prev s with
    | none => [s]
    | some (pre, c, rest, _) =>
      pre :: c :: pySplitCapF fuel r (newPrev (newPrev prev pre) c) rest

def pySplitCap (r : Rx) (s : Str) : List Str :=
  pySplitCapF (s.length + 1) r none s

/-- Build a sequence from a list of regexes. -/
def seqs (l : List Rx) : Rx := l.foldr .seq .eps

/-- Case-sensitive literal. -/
def rlit (s : String) : Rx := seqs (s.data.map (fun c => .cls (fun d => d = c)))

/-- Case-insensitive literal (ASCII case folding, as `re.IGNORECASE`). -/
def rlitCI (s : String) : Rx :=
  seqs (s.data.map (fun c => .cls (fun d => d.toLower = c.toLower)))

/-! ## The regex patterns of `chunking.py` -/

def nlB (c : Char) : Bool := c = '\n'
def notNlB (c : Char) : Bool := !(c = '\n')
def dashB (c : Char) : Bool := c = '-' || c = '–'
def spTabB (c : Char) : Bool := c = ' ' || c = '\t'
def colonWsB (c : Char) : Bool := c = ':' || wsB c
def colonEqB (c : Char) : Bool := c = ':' || c = '='
def upperB (c : Char) : Bool := 'A' ≤ c && c ≤ 'Z'
def lowerB (c : Char) : Bool := 'a' ≤ c && c ≤ 'z'
def digitB (c : Char) : Bool := '0' ≤ c && c ≤ '9'
def ivxB (c : Char) : Bool := c = 'I' || c = 'V' || c = 'X'
def ivxCIB (c : Char) : Bool :=
  c.toLower = 'i' || c.toLower = 'v' || c.toLower = 'x'
def d18B (c : Char) : Bool := '1' ≤ c && c ≤ '8'
def alphaB (c : Char) : Bool := upperB c || lowerB c
def courseNameClsB (c : Char) : Bool :=
  alphaB c || digitB c || wsB c || c = '&' || c = '(' || c = ')' || c = ',' ||
  c = '-'

/-- `r'^[-–]?\s*\d+\s*[-–]?\s*$'` (MULTILINE), page-number artifact lines. -/
def rxPageDigits : Rx :=
  seqs [.bolM, .opt (.cls dashB), .star wsB, .plus digitB, .star wsB,
    .opt (.cls dashB), .star wsB, .eolM]

/-- `r'^\s*Page\s+\d+\s*$'` (MULTILINE | IGNORECASE). -/
def rxPageWord : Rx :=
  seqs [.bolM, .star wsB, rlitCI "Page", .plus wsB, .plus digitB, .star wsB,
    .eolM]

/-- `r'\n\s*\n\s*\n+'`, runs of three or more blank-separated newlines. -/
def rxBlank3 : Rx :=
  seqs [.cls nlB, .star wsB, .cls nlB, .star wsB, .plus nlB]

/-- `r'[ \t]+'`, used to collapse runs of spaces/tabs inside a line. -/
def rxSpaceTab : Rx := .plus spTabB

/-- The section-header pattern of the effective `chunk_by_semantic_sections`:
`r'^[A-Z][.)]?\s+[A-Z][^\n]*|^[IVX]+[.)]?\s+[A-Z][^\n]*|^\d+[.)]?\s+[A-Z][^\n]*'`
(MULTILINE). -/
def rxSection : Rx :=
  .alt (seqs [.bolM, .cls upperB, .opt (.cls (fun c => c = '.' || c = ')')),
      .plus wsB, .cls upperB, .star notNlB])
    (.alt (seqs [.bolM, .plus ivxB, .opt (.cls (fun c => c = '.' || c = ')')),
        .plus wsB, .cls upperB, .star notNlB])
      (seqs [.bolM, .plus digitB, .opt (.cls (fun c => c = '.' || c = ')')),
        .plus wsB, .cls upperB, .star notNlB]))

/-- `r'[0-9]{1,2}\s+[A-Z][a-z]+\s+[0-9]{4}'`, the schedule/date pattern. -/
def rxSchedule : Rx :=
  seqs [.cls digitB, .opt (.cls digitB), .plus wsB, .cls upperB, .plus lowerB,
    .plus wsB, .cls digitB, .cls digitB, .cls digitB, .cls digitB]

/-- `r'credits?|hrs?\.|hours\s+per\s+week'`, searched in the lowercased text. -/
def rxCreditsInfo : Rx :=
  .alt (seqs [rlit "credit", .opt (.cls (fun c => c = 's'))])
    (.alt (seqs [rlit "hr", .opt (.cls (fun c => c = 's')),
        .cls (fun c => c = '.')])
      (seqs [rlit "hours", .plus wsB, rlit "per", .plus wsB, rlit "week"]))

/-- `[A-Z]{2,4}`, greedy (4 first, then 3, then 2). -/
def rxU24 : Rx :=
  seqs [.cls upperB, .cls upperB,
    .opt (.seq (.cls upperB) (.opt (.cls upperB)))]

/-- `\d{3,4}`, greedy. -/
def rxD34 : Rx :=
  seqs [.cls digitB, .cls digitB, .cls digitB, .opt (.cls digitB)]

/-- `r'([A-Z]{2,4}\s*[-]?\s*\d{3,4}|[A-Z]{2,4}\d{3,4})'` (course code). -/
def rxCourseCode : Rx :=
  .grp 1 (.alt
    (seqs [rxU24, .star wsB, .opt (.cls (fun c => c = '-')), .star wsB, rxD34])
    (seqs [rxU24, rxD34]))

/-- `r'(?:Course|Subject)?\s*(?:Title|Name)[:\s]*([^\n]+?)(?:\n|$)'`
(IGNORECASE, course name). -/
def rxCourseName : Rx :=
  seqs [.opt (.alt (rlitCI "Course") (rlitCI "Subject")), .star wsB,
    .alt (rlitCI "Title") (rlitCI "Name"), .star colonWsB,
    .grp 1 (.plusL notNlB), .alt (.cls nlB) .eolS]

/-- `r'Credits?\s*[:=]?\s*(\d+(?:\.\d)?)'` (IGNORECASE). -/
def rxCreditsX : Rx :=
  seqs [rlitCI "Credit", .opt (.cls (fun c => c.toLower = 's')), .star wsB,
    .opt (.cls colonEqB), .star wsB,
    .grp 1 (.seq (.plus digitB)
      (.opt (.seq (.cls (fun c => c = '.')) (.cls digitB))))]

/-- `r'(?:Sem|Semester)\s*[:=]?\s*([IVX]+|[1-8])'` (IGNORECASE). -/
def rxSemesterX : Rx :=
  seqs [.alt (rlitCI "Sem") (rlitCI "Semester"), .star wsB, .opt (.cls colonEqB),
    .star wsB, .grp 1 (.alt (.plus ivxCIB) (.cls d18B))]

/-- `r'(\d+)\s*(?:hrs?|hours)\s*/\s*(?:week|wk)'` (IGNORECASE). -/
def rxHoursX : Rx :=
  seqs [.grp 1 (.plus digitB), .star wsB,
    .alt (seqs [rlitCI "hr", .opt (.cls (fun c => c.toLower = 's'))])
      (rlitCI "hours"),
    .star wsB, .cls (fun c => c = '/'), .star wsB,
    .alt (rlitCI "week") (rlitCI "wk")]

/-- `r'(?:Course\s+)?Type[:\s]*([^\n]+?)(?:\n|$)'` (IGNORECASE). -/
def rxTypeX : Rx :=
  seqs [.opt (.seq (rlitCI "Course") (.plus wsB)), rlitCI "Type",
    .star colonWsB, .grp 1 (.plusL notNlB), .alt (.cls nlB) .eolS]

/-! ## `clean_text` -/

/-- A line whose spacing is preserved: contains a vertical bar or one of the
box-drawing glyphs checked by the source. -/
def isTableLine (l : Str) : Bool :=
  l.contains '|' || l.contains '─' || l.contains '│' || l.contains '┌' ||
  l.contains '┐' || l.contains '└' || l.contains '┘'

/-- Per-line normalization: table lines are kept verbatim, other lines have
space/tab runs collapsed to a single space and are stripped. -/
def normLine (l : Str) : Str :=
  if isTableLine l then l else pyStrip (subAllT rxSpaceTab [' '] l)

/-- `clean_text` (lines 4-31 of `chunking.py`). -/
def cleanTextL (t : Str) : Str :=
  let t1 := subAllT rxPageDigits [] t
  let t2 := subAllT rxPageWord [] t1
  let t3 := subAllT rxBlank3 ['\n', '\n'] t2
  pyStrip (joinNl ((splitNl t3).map normLine))

def clean_text (s : String) : String := ⟨cleanTextL s.data⟩

/-! ## `detect_section_type` -/

/-- `needle` is a prefix of `hay`. -/
def startsWithL : Str → Str → Bool
  | [], _ => true
  | _ :: _, [] => false
  | a :: n, b :: h => a = b && startsWithL n h

/-- Python's `needle in hay`: substring containment. -/
def isSubL (n : Str) : Str → Bool
  | [] => startsWithL n []
  | c :: t => startsWithL n (c :: t) || isSubL n t

def containsAny (t : Str) (ws : List String) : Bool :=
  ws.any (fun w => isSubL w.data t)

/-- `detect_section_type` (lines 33-73 of `chunking.py`). -/
def detectSectionTypeL (t : Str) : String :=
  let tl := t.map Char.toLower
  if t.contains '|' || t.contains '─' || t.contains '│' || t.contains '┌' ||
      3 < t.count '\t' then "table"
  else if containsAny tl ["course code", "course name", "credits",
      "core course", "f.y.", "s.y.", "t.y."] then "course_header"
  else if containsAny tl ["syllabus", "course content", "topics covered",
      "module"] then "syllabus"
  else if containsAny tl ["learning objectives", "course objectives",
      "outcomes", "learning outcomes"] then "objectives"
  else if containsAny tl ["textbook", "reference", "recommended", "book",
      "publication"] then "references"
  else if containsAny tl ["evaluation", "marks", "assessment", "grading",
      "weightage", "internal", "end term"] then "evaluation"
  else if containsAny tl ["prerequisite", "prior knowledge", "pre-requisite"]
    then "prerequisites"
  else if (reSearch rxSchedule t).isSome then "schedule"
  else if (reSearch rxCreditsInfo tl).isSome then "credits_info"
  else "general"

def detect_section_type (s : String) : String := detectSectionTypeL s.data

/-! ## `extract_subject_info` -/

/-- The metadata dict built by `extract_subject_info`; a `none` field models
an absent key. -/
structure SubjectInfo where
  course_code : Option String
  course_name : Option String
  credits : Option String
  semester : Option String
  teaching_hours : Option String
  course_type : Option String
deriving DecidableEq, Repr

/-- `extract_subject_info` (lines 75-109 of `chunking.py`). -/
def extractSubjectInfoL (t : Str) : SubjectInfo where
  course_code := (searchGroup rxCourseCode t 1).map (fun g => ⟨pyStrip g⟩)
  course_name := (searchGroup rxCourseName t 1).map (fun g => ⟨pyStrip g⟩)
  credits := (searchGroup rxCreditsX t 1).map (fun g => ⟨pyStrip g⟩)
  semester :=
    (searchGroup rxSemesterX t 1).map
      (fun g => ⟨(pyStrip g).map Char.toLower⟩)
  teaching_hours := (searchGroup rxHoursX t 1).map (fun g => ⟨pyStrip g⟩)
  course_type := (searchGroup rxTypeX t 1).map (fun g => ⟨pyStrip g⟩)

def extract_subject_info (s : String) : SubjectInfo := extractSubjectInfoL s.data

/-! ## The effective `chunk_by_semantic_sections` (lines 314-399) -/

/-- One chunk dict.  The effective chunker's dict literals contain the keys
`text`, `section` (here `sectionName`, since `section` is reserved in Lean),
`type`, `metadata` and `size`; `chunk_num` models the sequence-index key,
which only the shadowed first definition of the function sets — the effective
definition never adds it, so every chunk it builds carries `none`. -/
structure ChunkD where
  text : String
  sectionName : String
  type : String
  metadata : SubjectInfo
  size : Nat
  chunk_num : Option Nat
deriving DecidableEq, Repr

/-- The chunk dict built at each of the three construction sites of the
effective `chunk_by_semantic_sections` (lines 350-356, 374-380, 390-396):
`text` is the stripped accumulator, `size` the length of the accumulator
before stripping. -/
def mkChunk (cur hdr : Str) : ChunkD where
  text := ⟨pyStrip cur⟩
  sectionName := ⟨pyStrip hdr⟩
  type := detectSectionTypeL cur
  metadata := extractSubjectInfoL cur
  size := cur.length
  chunk_num := none

/-- `re.split(r'(?<=[.!?])\s+', s)`: split at whitespace runs preceded by a
sentence-ending character (the lookbehind split of line 369). -/
def splitSenF (fuel : Nat) (prev : Option Char) (s : Str) : List Str :=
  match fuel, s with
  | _, [] => [[]]
  | 0, s => [s]
  | fuel + 1, c :: t =>
    if (prev = some '.' || prev = some '!' || prev = some '?') && wsB c then
      let (run, rest) := runSplit wsB (c :: t)
      [] :: splitSenF fuel (newPrev prev run) rest
    else
      match splitSenF fuel (some c) t with
      | [] => [[c]]
      | h :: r => (c :: h) :: r

def splitSentences (s : Str) : List Str := splitSenF (s.length + 1) none s

/-- `re.match(section_pattern, section, flags=re.MULTILINE)` used as the
header test (line 345): an anchored match at the start of the piece. -/
def isHeaderL (sec : Str) : Bool := !(mtch rxSection none sec).isEmpty

/-- The inner sentence loop of the oversize branch (lines 370-384). -/
def sentLoop (mx : Nat) (hdr : Str) :
    List Str → List ChunkD → Str → List ChunkD × Str
  | [], acc, tmp => (acc, tmp)
  | sent :: rest, acc, tmp =>
    if mx < tmp.length + sent.length ∧ pyStrip tmp ≠ [] then
      sentLoop mx hdr rest (acc ++ [mkChunk tmp hdr]) sent
    else
      sentLoop mx hdr rest acc (tmp ++ ' ' :: sent)

/-- The main section loop of the effective `chunk_by_semantic_sections`
(lines 340-397), including the final-chunk handling: the trailing accumulator
is emitted only when it reaches `mn`; otherwise it is discarded. -/
def semLoop (mn mx : Nat) :
    List Str → Str → Str → List ChunkD → List ChunkD
  | [], cur, hdr, acc =>
    if pyStrip cur ≠ [] ∧ mn ≤ cur.length then acc ++ [mkChunk cur hdr]
    else acc
  | sec :: rest, cur, hdr, acc =>
    if pyStrip sec = [] then semLoop mn mx rest cur hdr acc
    else if isHeaderL sec then
      let acc' :=
        if pyStrip cur ≠ [] ∧ mn ≤ cur.length then acc ++ [mkChunk cur hdr]
        else acc
      semLoop mn mx rest [] (pyStrip sec) acc'
    else
      let cur' := cur ++ '\n' :: sec
      if mx < cur'.length then
        let res := sentLoop mx hdr (splitSentences cur') acc []
        semLoop mn mx rest res.2 hdr res.1
      else semLoop mn mx rest cur' hdr acc

/-- The effective (second) definition of `chunk_by_semantic_sections`
(lines 314-399 of `chunking.py`). -/
def chunk_by_semantic_sections (text : String) (min_chunk_size max_chunk_size : Nat) :
    List ChunkD :=
  let t := cleanTextL text.data
  semLoop min_chunk_size max_chunk_size (pySplitCap rxSection t) [] [] []

/-! ## The effective `chunk_text` (lines 401-445) -/

/-- Python slice `t[a:b]` with the clamping rules for negative indices. -/
def pySlice (t : Str) (a b : Int) : Str :=
  let n : Int := t.length
  let a' := (if a < 0 then max (n + a) 0 else min a n).toNat
  let b' := (if b < 0 then max (n + b) 0 else min b n).toNat
  (t.take b').drop a'

/-- A chunk built by the character-based fallback path (lines 434-440). -/
def mkFallbackChunk (ch : Str) : ChunkD where
  text := ⟨pyStrip ch⟩
  sectionName := "general"
  type := detectSectionTypeL ch
  metadata := extractSubjectInfoL ch
  size := ch.length
  chunk_num := none

/-- The `while start < text_length` loop of the fallback path (lines
428-443).  The fuel counts loop iterations; `none` means the loop has not
terminated within the given number of iterations (for any fuel), which is how
non-termination is observed in the embedding. -/
def fallbackLoop (t : Str) (chunk_size overlap : Int) :
    Nat → Int → List ChunkD → Option (List ChunkD)
  | fuel, start, acc =>
    if start < (t.length : Int) then
      match fuel with
      | 0 => none
      | fuel + 1 =>
        let ch := pySlice t start (start + chunk_size)
        let acc' := if pyStrip ch ≠ [] then acc ++ [mkFallbackChunk ch] else acc
        fallbackLoop t chunk_size overlap fuel
          (start + (chunk_size - overlap)) acc'
    else some acc

/-- The effective (second) definition of `chunk_text` (lines 401-445).
`use_semantic = true` returns the semantic chunker's result with the fixed
bounds 300/800; otherwise the character-based fallback loop runs with the
given fuel. -/
def chunk_text (fuel : Nat) (text : String) (chunk_size overlap : Int)
    (use_semantic : Bool) : Option (List ChunkD) :=
  match use_semantic with
  | true => some (chunk_by_semantic_sections text 300 800)
  | false => fallbackLoop (cleanTextL text.data) chunk_size overlap fuel 0 []

/-! ## `SyllabusParser.parse_syllabus_text` (`syllabus_parser.py`, 152-209) -/

/-- `r'(?:SEM-|Semester:?\s*|^SEMESTER\s+)([IVX]+|[0-9]{1,2})'`
(IGNORECASE; `^` is a plain string anchor since the search runs per line
without MULTILINE). -/
def rxSemPat : Rx :=
  seqs [.alt (rlitCI "SEM-")
      (.alt (seqs [rlitCI "Semester", .opt (.cls (fun c => c = ':')), .star wsB])
        (seqs [.bolS, rlitCI "SEMESTER", .plus wsB])),
    .grp 1 (.alt (.plus ivxCIB) (.seq (.cls digitB) (.opt (.cls digitB))))]

/-- `r'([A-Z]{3}\d{6}(?:\d{3})?)\s*[:–-]?\s*([A-Za-z][A-Za-z0-9\s&(),-]*?)(?:\n|$)'`. -/
def rxCoursePat : Rx :=
  seqs [.grp 1 (seqs [.cls upperB, .cls upperB, .cls upperB,
      .cls digitB, .cls digitB, .cls digitB, .cls digitB, .cls digitB,
      .cls digitB,
      .opt (seqs [.cls digitB, .cls digitB, .cls digitB])]),
    .star wsB, .opt (.cls (fun c => c = ':' || c = '–' || c = '-')), .star wsB,
    .grp 2 (.seq (.cls alphaB) (.starL courseNameClsB)),
    .alt (.cls nlB) .eolS]

/-- `r'(?:UNIT|Unit)\s+([IVX]+|[0-9]{1,2})'` (IGNORECASE). -/
def rxUnitPat : Rx :=
  seqs [.alt (rlitCI "UNIT") (rlitCI "Unit"), .plus wsB,
    .grp 1 (.alt (.plus ivxCIB) (.seq (.cls digitB) (.opt (.cls digitB))))]

/-- `r'\s+\([^)]*\).*$'`, the parenthetical cleanup on course names. -/
def rxParenClean : Rx :=
  seqs [.plus wsB, .cls (fun c => c = '('), .star (fun c => !(c = ')')),
    .cls (fun c => c = ')'), .star notNlB, .eolS]

/-- `r'\s*Credits?.*$'` (IGNORECASE), the credits cleanup on course names. -/
def rxCreditsClean : Rx :=
  seqs [.star wsB, rlitCI "Credit", .opt (.cls (fun c => c.toLower = 's')),
    .star notNlB, .eolS]

/-- The per-line tracking state of `parse_syllabus_text`. -/
structure ParseSt where
  current_semester : Option Str
  current_course_code : Option Str
  current_course_name : Option Str
  current_unit : Option Str
  buffer : List Str
deriving Repr

/-- One iteration of the line loop of `parse_syllabus_text` (lines 177-207):
update the tracked metadata, reset the buffer on a hit, then append the line
to the buffer. -/
def parseLine (st : ParseSt) (line : Str) : ParseSt :=
  let st :=
    match searchGroup rxSemPat line 1 with
    | some g => { st with current_semester := some (pyStrip g), buffer := [] }
    | none => st
  let st :=
    match reSearch rxCoursePat line with
    | some res =>
      let caps : Caps := res.2.2.2
      let g1 := ((caps.find? (fun g : Nat × Str => g.1 = 1)).map
        (fun g : Nat × Str => g.2)).getD []
      let g2 := ((caps.find? (fun g : Nat × Str => g.1 = 2)).map
        (fun g : Nat × Str => g.2)).getD []
      let name := pyStrip g2
      let name := subAllT rxParenClean [] name
      let name := subAllT rxCreditsClean [] name
      { st with current_course_code := some (pyStrip g1),
                current_course_name := some name, buffer := [] }
    | none => st
  let st :=
    match searchGroup rxUnitPat line 1 with
    | some g =>
      { st with current_unit := some ("Unit ".data ++ pyStrip g), buffer := [] }
    | none => st
  { st with buffer := st.buffer ++ [line] }

/-- The line loop: the `results` accumulator is threaded through untouched,
exactly as in the source, which never appends to `results`. -/
def parseLoop : List Str → ParseSt → List (List (String × String)) →
    List (List (String × String))
  | [], _, results => results
  | line :: rest, st, results => parseLoop rest (parseLine st line) results

/-- `SyllabusParser.parse_syllabus_text` (lines 152-209 of
`syllabus_parser.py`). -/
def parse_syllabus_text (full_text : String) : List (List (String × String)) :=
  parseLoop (splitNl full_text.data) ⟨none, none, none, none, []⟩ []

/-! ## Claim theorems -/

/-- C1.  The claim states that an end-of-input remainder that is non-empty
after trimming but shorter than `min_chunk_size` is appended to the previously
emitted chunk (with that chunk's size updated).  The effective (second)
definition of `chunk_by_semantic_sections` has no such branch: on the input
below (min 5), the section `2. BBBB` leaves the accumulated remainder
`"\n\nzz"` (length 4 < 5) at end of input, and the function returns only the
`"Hello"` chunk — the trailing `"zz"` is discarded, not appended.  Only the
shadowed first definition (lines 217-222) implements the claimed merge. -/
theorem c1_effective_chunker_drops_small_tail :
    chunk_by_semantic_sections "1. AAAA\nHello\n2. BBBB\nzz" 5 800 =
      [{ text := "Hello", sectionName := "1. AAAA", type := "general",
         metadata := ⟨none, none, none, none, none, none⟩, size := 8,
         chunk_num := none }] := by decide

/-- C2.  The claim states that the chunks returned by the semantic chunker
carry a sequence-index field with values `0..n-1`.  The effective (second)
definition of `chunk_by_semantic_sections` builds dicts with no index key at
all (`chunk_num` appears only in the shadowed first definition): on `"hello"`
(min 1) it returns one chunk whose index field is absent. -/
theorem c2_effective_chunks_carry_no_sequence_index :
    (chunk_by_semantic_sections "hello" 1 800).map (fun c => c.chunk_num) =
      [none] := by decide

/-- C3, counterexample.  The claim states every chunk's `size` equals the
character length of its `text`.  On `"hello"` (min 1) the effective chunker
accumulates `"\nhello"` (length 6) and builds the chunk from its stripped
text `"hello"` (length 5) but with `size` 6 — the length of the accumulator
before trimming. -/
theorem c3_size_ne_text_length_counterexample :
    (chunk_by_semantic_sections "hello" 1 800).map
      (fun c => (c.size, c.text.length)) = [(6, 5)] := by decide

/-- C4.  The claim states body text accumulated under one header is never
silently dropped when the next header arrives.  In the effective definition
the header branch has no small-accumulator merge: below (min 9), the body
`"Hi all"` (accumulator length 8 < 9) is discarded when header `1. AAAA`
arrives, and no returned chunk contains it. -/
theorem c4_body_before_header_silently_dropped :
    chunk_by_semantic_sections "Hi all\n1. AAAA\nWelcome" 9 800 =
      [{ text := "Welcome", sectionName := "1. AAAA", type := "general",
         metadata := ⟨none, none, none, none, none, none⟩, size := 9,
         chunk_num := none }] := by decide

/-- C5, counterexample.  The claim states every span containing a box-drawing
glyph classifies as `table`.  The source checks only `|`, `─`, `│`, `┌`; a
span containing the box-drawing glyph `┘` together with the keyword
`evaluation` classifies as `evaluation`, not `table`. -/
theorem c5_box_drawing_glyph_not_table_counterexample :
    detect_section_type "┘ evaluation" = "evaluation" := by decide

/-- C5, amended.  `detect_section_type` is a pure function (hence
deterministic), and for the table-marker set the source actually implements —
a vertical bar, one of the glyphs `─`, `│`, `┌`, or more than 3 tabs — the
first-match-wins priority holds: any such span classifies as `table`
regardless of any later-priority keyword it contains. -/
theorem c5_table_marker_priority (s : String)
    (h : (s.data.contains '|' || s.data.contains '─' || s.data.contains '│' ||
      s.data.contains '┌' || decide (3 < s.data.count '\t')) = true) :
    detect_section_type s = "table" := by
  unfold detect_section_type detectSectionTypeL
  simp only [Bool.or_eq_true, decide_eq_true_eq] at h
  split
  · rfl
  · rename_i hc
    simp only [Bool.or_eq_true, decide_eq_true_eq] at hc
    exact absurd h hc

/-- C5, witness for the amended theorem: `"| evaluation"` contains a vertical
bar and the later-priority keyword `evaluation`, and classifies as `table`. -/
theorem c5_table_marker_priority_witness :
    detect_section_type "| evaluation" = "table" :=
  c5_table_marker_priority "| evaluation" (by decide)

/-- C6.  The claim states the fallback chunker validates `chunk_size <=
overlap` and fails fast with an `InvalidConfiguration` condition.  No such
validation or condition exists anywhere in the source: with `chunk_size = 1`,
`overlap = 1` the stride is 0 and `start` never advances, so the
`while start < text_length` loop never terminates — for every iteration bound
`fuel`, the embedded loop is still running (`none`). -/
theorem c6_fallback_nonpositive_stride_never_terminates :
    ∀ fuel : Nat, chunk_text fuel "ab" 1 1 false = none := by
  have key : ∀ (fuel : Nat) (acc : List ChunkD),
      fallbackLoop ("ab".data) 1 1 fuel 0 acc = none := by
    intro fuel
    induction fuel with
    | zero => intro acc; rfl
    | succ n ih =>
      intro acc
      show fallbackLoop ("ab".data) 1 1 (n + 1) 0 acc = none
      rw [fallbackLoop]
      simp only [show ((0 : Int) < (("ab".data : Str).length : Int)) = True by
        decide, if_true]
      exact ih _
  intro fuel
  show fallbackLoop (cleanTextL "ab".data) 1 1 fuel 0 [] = none
  have hclean : cleanTextL "ab".data = "ab".data := by decide
  rw [hclean]
  exact key fuel []

/-- C7, counterexample.  The claim states the metadata mapping never binds a
key to an empty string, naming the label-followed-by-whitespace case.  On
`"Name: "` the lazy group of the course-name pattern matches the single
space after the colon, and stripping it yields the empty string, which is
stored under `course_name`. -/
theorem c7_course_name_empty_string_counterexample :
    (extract_subject_info "Name: ").course_name = some "" := by decide

/-- C8, counterexample.  The claim states `clean_text` is idempotent.  On
`" - 5"` the first pass only trims the line to `"- 5"` (the page-number
pattern does not allow whitespace before the leading dash), and the second
pass then removes the exposed page-number line entirely. -/
theorem c8_clean_text_not_idempotent_counterexample :
    clean_text (clean_text " - 5") ≠ clean_text " - 5" := by decide

/-- C9.  With `use_semantic = true`, `chunk_text` returns
`chunk_by_semantic_sections(text, 300, 800)` regardless of `chunk_size` and
`overlap`: the result is independent of those arguments. -/
theorem c9_semantic_mode_ignores_size_params :
    ∀ (fuel : Nat) (text : String) (cs ov cs' ov' : Int),
      chunk_text fuel text cs ov true = chunk_text fuel text cs' ov' true :=
  fun _ _ _ _ _ _ => rfl

/-- C10.  `parse_syllabus_text` initializes `results = []` and the line loop
never appends to it, so the function returns the empty list on every input. -/
theorem c10_parse_syllabus_text_always_empty :
    ∀ s : String, parse_syllabus_text s = [] := by
  have key : ∀ (lines : List Str) (st : ParseSt)
      (res : List (List (String × String))), parseLoop lines st res = res := by
    intro lines
    induction lines with
    | nil => intro st res; rfl
    | cons l t ih => intro st res; exact ih _ _
  intro s
  exact key _ _ _

/-! ## C3: the size/text relationship that actually holds -/

/-- The shape every chunk built by the semantic chunker has: its `text` is
the trimmed form of some raw accumulator and its `size` is the length of that
accumulator before trimming. -/
def ChunkOk (c : ChunkD) : Prop :=
  ∃ raw : Str, c.text.data = pyStrip raw ∧ c.size = raw.length

theorem mkChunk_ok (cur hdr : Str) : ChunkOk (mkChunk cur hdr) :=
  ⟨cur, rfl, rfl⟩

theorem sentLoop_ok (mx : Nat) (hdr : Str) :
    ∀ (sents : List Str) (acc : List ChunkD) (tmp : Str),
      (∀ c ∈ acc, ChunkOk c) →
      ∀ c ∈ (sentLoop mx hdr sents acc tmp).1, ChunkOk c := by
  intro sents
  induction sents with
  | nil => intro acc tmp h c hc; exact h c hc
  | cons sent rest ih =>
    intro acc tmp h c hc
    rw [sentLoop] at hc
    split at hc
    · refine ih _ _ ?_ c hc
      intro d hd
      rcases List.mem_append.mp hd with hd | hd
      · exact h d hd
      · simp only [List.mem_singleton] at hd
        subst hd; exact mkChunk_ok _ _
    · exact ih _ _ h c hc

theorem semLoop_ok (mn mx : Nat) :
    ∀ (secs : List Str) (cur hdr : Str) (acc : List ChunkD),
      (∀ c ∈ acc, ChunkOk c) →
      ∀ c ∈ semLoop mn mx secs cur hdr acc, ChunkOk c := by
  intro secs
  induction secs with
  | nil =>
    intro cur hdr acc h c hc
    rw [semLoop] at hc
    split at hc
    · rcases List.mem_append.mp hc with hc | hc
      · exact h c hc
      · simp only [List.mem_singleton] at hc
        subst hc; exact mkChunk_ok _ _
    · exact h c hc
  | cons sec rest ih =>
    intro cur hdr acc h c hc
    rw [semLoop] at hc
    split at hc
    · exact ih _ _ _ h c hc
    · split at hc
      · refine ih _ _ _ ?_ c hc
        intro d hd
        split at hd
        · rcases List.mem_append.mp hd with hd | hd
          · exact h d hd
          · simp only [List.mem_singleton] at hd
            subst hd; exact mkChunk_ok _ _
        · exact h d hd
      · simp only [] at hc
        split at hc
        · exact ih _ _ _ (sentLoop_ok mx hdr _ _ _ h) c hc
        · exact ih _ _ _ h c hc

/-- C3, amended.  Every chunk returned by the effective semantic chunker has
`text` equal to the trimmed form of some raw accumulator and `size` equal to
the length of that accumulator *before* trimming (the construction sites use
`'text': cur.strip(), 'size': len(cur)`); consequently `size` is an upper
bound for the character length of `text`, not in general equal to it. -/
theorem c3_size_eq_pretrim_length (text : String) (mn mx : Nat) (c : ChunkD)
    (hc : c ∈ chunk_by_semantic_sections text mn mx) :
    (∃ raw : Str, c.text.data = pyStrip raw ∧ c.size = raw.length) ∧
      c.text.length ≤ c.size := by
  have hok : ChunkOk c := semLoop_ok mn mx _ _ _ _ (by intro d hd; cases hd) c hc
  refine ⟨hok, ?_⟩
  rcases hok with ⟨raw, ht, hs⟩
  have hlen : c.text.length = (pyStrip raw).length := by
    show c.text.data.length = _
    rw [ht]
  rw [hlen, hs]
  unfold pyStrip
  calc ((raw.dropWhile wsB).reverse.dropWhile wsB).reverse.length
      = ((raw.dropWhile wsB).reverse.dropWhile wsB).length := by
        rw [List.length_reverse]
    _ ≤ (raw.dropWhile wsB).reverse.length :=
        (List.dropWhile_sublist wsB).length_le
    _ = (raw.dropWhile wsB).length := by rw [List.length_reverse]
    _ ≤ raw.length := (List.dropWhile_sublist wsB).length_le

/-- C3 witness: on `"hello"` (min 1) the single returned chunk has raw
accumulator `"\nhello"`, text `"hello"` (length 5) and size 6. -/
theorem c3_size_eq_pretrim_length_witness :
    ∃ c : ChunkD, c ∈ chunk_by_semantic_sections "hello" 1 800 ∧
      ((∃ raw : Str, c.text.data = pyStrip raw ∧ c.size = raw.length) ∧
        c.text.length ≤ c.size) := by
  refine ⟨(chunk_by_semantic_sections "hello" 1 800).head (by decide), ?_, ?_⟩
  · exact List.head_mem _
  · exact c3_size_eq_pretrim_length "hello" 1 800 _ (List.head_mem _)

/-! ## C7: engine lemmas and the fields that are never empty -/

theorem runSplit_fst_all (p : Char → Bool) :
    ∀ l : Str, ∀ c ∈ (runSplit p l).1, p c = true := by
  intro l
  induction l with
  | nil => intro c hc; cases hc
  | cons a t ih =>
    intro c hc
    rw [runSplit] at hc
    split at hc
    · rename_i hpa
      simp only [] at hc
      rcases List.mem_cons.mp hc with rfl | hc
      · exact hpa
      · exact ih c hc
    · cases hc

theorem mem_starOuts {p : Char → Bool} {rest : Str} {lazy one : Bool} {o}
    (h : o ∈ starOuts p rest lazy one) :
    (∀ c ∈ o.1, p c = true) ∧ (one = true → o.1 ≠ []) ∧ o.2.2 = [] := by
  rcases hrs : runSplit p rest with ⟨run, r2⟩
  have hrun : ∀ c ∈ run, p c = true := by
    intro c hc
    have := runSplit_fst_all p rest c
    rw [hrs] at this
    exact this hc
  rw [starOuts, hrs] at h
  rcases one with _ | _
  · simp only [Bool.false_eq_true, if_false, List.mem_map, List.mem_range] at h
    obtain ⟨d, hd, rfl⟩ := h
    exact ⟨fun c hc => hrun c (List.mem_of_mem_take hc), by simp, rfl⟩
  · simp only [eq_self_iff_true, if_true, List.mem_map, List.mem_filter,
      List.mem_range, decide_eq_true_eq] at h
    obtain ⟨k, ⟨hkmem, hpos⟩, rfl⟩ := h
    obtain ⟨d, hd, hkd⟩ := hkmem
    refine ⟨fun c hc => hrun c (List.mem_of_mem_take hc), fun _ hnil => ?_, rfl⟩
    have hkle : k ≤ run.length := by
      rcases lazy with _ | _ <;> simp only [Bool.false_eq_true, if_false,
        eq_self_iff_true, if_true] at hkd <;> omega
    rcases List.take_eq_nil_iff.mp hnil with h0 | h0
    · omega
    · rw [h0] at hkle
      simp only [List.length_nil, Nat.le_zero] at hkle
      omega

theorem mem_mtch_cls {p : Char → Bool} {prev rest o}
    (h : o ∈ mtch (.cls p) prev rest) :
    ∃ c t, rest = c :: t ∧ p c = true ∧ o = ([c], t, []) := by
  cases rest with
  | nil => simp [mtch] at h
  | cons c t =>
    rw [mtch] at h
    split at h
    · rename_i hp
      simp only [List.mem_singleton] at h
      exact ⟨c, t, rfl, hp, h⟩
    · cases h

theorem mem_mtch_seq {a b : Rx} {prev rest o}
    (h : o ∈ mtch (.seq a b) prev rest) :
    ∃ o1 o2, o1 ∈ mtch a prev rest ∧ o2 ∈ mtch b (newPrev prev o1.1) o1.2.1 ∧
      o = (o1.1 ++ o2.1, o2.2.1, o1.2.2 ++ o2.2.2) := by
  rw [mtch] at h
  simp only [List.mem_flatMap, List.mem_map] at h
  obtain ⟨o1, h1, o2, h2, rfl⟩ := h
  exact ⟨o1, o2, h1, h2, rfl⟩

theorem mem_mtch_alt {a b : Rx} {prev rest o}
    (h : o ∈ mtch (.alt a b) prev rest) :
    o ∈ mtch a prev rest ∨ o ∈ mtch b prev rest := by
  rw [mtch] at h
  exact List.mem_append.mp h

theorem mem_mtch_opt {a : Rx} {prev rest o}
    (h : o ∈ mtch (.opt a) prev rest) :
    o ∈ mtch a prev rest ∨ o = ([], rest, []) := by
  rw [mtch] at h
  rcases List.mem_append.mp h with h | h
  · exact Or.inl h
  · simp only [List.mem_singleton] at h
    exact Or.inr h

theorem mem_mtch_grp {n : Nat} {a : Rx} {prev rest o}
    (h : o ∈ mtch (.grp n a) prev rest) :
    ∃ o', o' ∈ mtch a prev rest ∧ o = (o'.1, o'.2.1, (n, o'.1) :: o'.2.2) := by
  rw [mtch] at h
  simp only [List.mem_map] at h
  obtain ⟨o', h', rfl⟩ := h
  exact ⟨o', h', rfl⟩

/-- Patterns without capture groups. -/
def grpFree : Rx → Bool
  | .eps => true
  | .cls _ => true
  | .alt a b => grpFree a && grpFree b
  | .seq a b => grpFree a && grpFree b
  | .opt a => grpFree a
  | .star _ => true
  | .starL _ => true
  | .plus _ => true
  | .plusL _ => true
  | .grp _ _ => false
  | .bolM => true
  | .eolM => true
  | .bolS => true
  | .eolS => true

theorem mtch_anchor_nil {r : Rx} {prev rest o}
    (hr : r = .eps ∨ r = .bolM ∨ r = .eolM ∨ r = .bolS ∨ r = .eolS)
    (h : o ∈ mtch r prev rest) : o = ([], rest, []) := by
  rcases hr with rfl | rfl | rfl | rfl | rfl
  · simpa [mtch] using h
  all_goals
    rw [mtch] at h
    split at h
    · simpa using h
    · simp at h

theorem mtch_grpFree_caps {r : Rx} (hr : grpFree r = true) :
    ∀ {prev rest o}, o ∈ mtch r prev rest → o.2.2 = [] := by
  induction r with
  | eps => intro prev rest o h; rw [mtch_anchor_nil (Or.inl rfl) h]
  | cls p =>
    intro prev rest o h
    obtain ⟨c, t, _, _, rfl⟩ := mem_mtch_cls h
    rfl
  | alt a b iha ihb =>
    intro prev rest o h
    rw [grpFree, Bool.and_eq_true] at hr
    rcases mem_mtch_alt h with h | h
    · exact iha hr.1 h
    · exact ihb hr.2 h
  | seq a b iha ihb =>
    intro prev rest o h
    rw [grpFree, Bool.and_eq_true] at hr
    obtain ⟨o1, o2, h1, h2, rfl⟩ := mem_mtch_seq h
    simp only []
    rw [iha hr.1 h1, ihb hr.2 h2]
    rfl
  | opt a iha =>
    intro prev rest o h
    rw [grpFree] at hr
    rcases mem_mtch_opt h with h | rfl
    · exact iha hr h
    · rfl
  | star p => intro prev rest o h; exact (mem_starOuts h).2.2
  | starL p => intro prev rest o h; exact (mem_starOuts h).2.2
  | plus p => intro prev rest o h; exact (mem_starOuts h).2.2
  | plusL p => intro prev rest o h; exact (mem_starOuts h).2.2
  | grp n a iha => intro prev rest o h; cases hr
  | bolM => intro prev rest o h; rw [mtch_anchor_nil (by simp) h]
  | eolM => intro prev rest o h; rw [mtch_anchor_nil (by simp) h]
  | bolS => intro prev rest o h; rw [mtch_anchor_nil (by simp) h]
  | eolS => intro prev rest o h; rw [mtch_anchor_nil (by simp) h]

theorem searchFrom_mem {r : Rx} :
    ∀ {prev s res}, searchFrom r prev s = some res →
      ∃ pv s', res.2 ∈ mtch r pv s' := by
  intro prev s
  induction s generalizing prev with
  | nil =>
    intro res h
    rw [searchFrom] at h
    split at h
    · rename_i o tl ho
      injection h with h'
      subst h'
      refine ⟨prev, [], ?_⟩
      rw [ho]
      exact List.mem_cons_self _ _
    · simp at h
  | cons a t ih =>
    intro res h
    rw [searchFrom] at h
    split at h
    · rename_i o tl ho
      injection h with h'
      subst h'
      refine ⟨prev, a :: t, ?_⟩
      rw [ho]
      exact List.mem_cons_self _ _
    · simp only [Option.map_eq_some'] at h
      obtain ⟨o, ho, heq⟩ := h
      subst heq
      obtain ⟨pv, s', hm⟩ := ih ho
      exact ⟨pv, s', hm⟩

theorem mem_mtch_seq_capsFree {a b : Rx} (hga : grpFree a = true)
    {prev rest o} (h : o ∈ mtch (.seq a b) prev rest) :
    ∃ pv rs o2, o2 ∈ mtch b pv rs ∧ o.2.2 = o2.2.2 ∧ ∃ pre, o.1 = pre ++ o2.1 := by
  obtain ⟨o1, o2, h1, h2, rfl⟩ := mem_mtch_seq h
  refine ⟨_, _, o2, h2, ?_, ⟨o1.1, rfl⟩⟩
  simp [mtch_grpFree_caps hga h1]

theorem caps_of_grp_end {n : Nat} {gb : Rx} (hgb : grpFree gb = true)
    {pv rs o} (h : o ∈ mtch (.seq (.grp n gb) .eps) pv rs) :
    ∃ og, og ∈ mtch gb pv rs ∧ o.2.2 = [(n, og.1)] := by
  obtain ⟨o1, o2, h1, h2, rfl⟩ := mem_mtch_seq h
  obtain ⟨og, hog, rfl⟩ := mem_mtch_grp h1
  have he := mtch_anchor_nil (Or.inl rfl) h2
  subst he
  refine ⟨og, hog, ?_⟩
  simp [mtch_grpFree_caps hgb hog]

theorem wsB_cases {c : Char} (h : wsB c = true) :
    c = ' ' ∨ c = '\t' ∨ c = '\n' ∨ c = '\r' ∨ c = '\x0b' ∨ c = '\x0c' := by
  simp only [wsB, Bool.or_eq_true, decide_eq_true_eq] at h
  tauto

theorem not_ws_of_pred {q : Char → Bool}
    (hq : q ' ' = false ∧ q '\t' = false ∧ q '\n' = false ∧ q '\r' = false ∧
      q '\x0b' = false ∧ q '\x0c' = false) {c : Char} (h : q c = true) :
    wsB c = false := by
  by_contra hw
  rw [Bool.not_eq_false] at hw
  rcases wsB_cases hw with rfl | rfl | rfl | rfl | rfl | rfl <;> simp_all

theorem exists_nonWs_of_all {g : Str} {q : Char → Bool} (hne : g ≠ [])
    (hall : ∀ c ∈ g, q c = true)
    (hq : ∀ c : Char, q c = true → wsB c = false) :
    ∃ c ∈ g, wsB c = false := by
  cases g with
  | nil => exact absurd rfl hne
  | cons c t =>
    exact ⟨c, List.mem_cons_self _ _, hq c (hall c (List.mem_cons_self _ _))⟩

/-- The captured group of the credits pattern is a single group 1 whose text
contains a non-whitespace character (it starts with digits). -/
theorem caps_of_rxCreditsX {pv s' o} (h : o ∈ mtch rxCreditsX pv s') :
    ∃ g, o.2.2 = [(1, g)] ∧ ∃ c ∈ g, wsB c = false := by
  simp only [rxCreditsX, seqs, List.foldr_cons, List.foldr_nil] at h
  obtain ⟨pv1, rs1, o1, h1, hc1, -⟩ := mem_mtch_seq_capsFree (by rfl) h
  obtain ⟨pv2, rs2, o2, h2, hc2, -⟩ := mem_mtch_seq_capsFree (by rfl) h1
  obtain ⟨pv3, rs3, o3, h3, hc3, -⟩ := mem_mtch_seq_capsFree (by rfl) h2
  obtain ⟨pv4, rs4, o4, h4, hc4, -⟩ := mem_mtch_seq_capsFree (by rfl) h3
  obtain ⟨pv5, rs5, o5, h5, hc5, -⟩ := mem_mtch_seq_capsFree (by rfl) h4
  obtain ⟨og, hog, hcg⟩ := caps_of_grp_end (by rfl) h5
  refine ⟨og.1, by rw [hc1, hc2, hc3, hc4, hc5, hcg], ?_⟩
  obtain ⟨od, oo, hd, ho, rfl⟩ := mem_mtch_seq hog
  obtain ⟨halld, hned, -⟩ := mem_starOuts hd
  obtain ⟨c, hc, hcw⟩ := exists_nonWs_of_all (hned rfl) halld
    (fun c hc => not_ws_of_pred (by decide) hc)
  exact ⟨c, List.mem_append_left _ hc, hcw⟩

/-- The captured group of the teaching-hours pattern contains a
non-whitespace character (it is a digit run). -/
theorem caps_of_rxHoursX {pv s' o} (h : o ∈ mtch rxHoursX pv s') :
    ∃ g, o.2.2 = [(1, g)] ∧ ∃ c ∈ g, wsB c = false := by
  simp only [rxHoursX, seqs, List.foldr_cons, List.foldr_nil] at h
  obtain ⟨o1, o2, h1, h2, rfl⟩ := mem_mtch_seq h
  obtain ⟨og, hog, rfl⟩ := mem_mtch_grp h1
  have hrest : o2.2.2 = [] := by
    obtain ⟨pvx, rsx, ox, hx, hcx, -⟩ := mem_mtch_seq_capsFree (by rfl) h2
    obtain ⟨pvy, rsy, oy, hy, hcy, -⟩ := mem_mtch_seq_capsFree (by rfl) hx
    obtain ⟨pvz, rsz, oz, hz, hcz, -⟩ := mem_mtch_seq_capsFree (by rfl) hy
    obtain ⟨pvw, rsw, ow, hw, hcw, -⟩ := mem_mtch_seq_capsFree (by rfl) hz
    obtain ⟨pvv, rsv, ov, hv, hcv, -⟩ := mem_mtch_seq_capsFree (by rfl) hw
    obtain ⟨pvu, rsu, ou, hu, hcu, -⟩ := mem_mtch_seq_capsFree (by rfl) hv
    rw [hcx, hcy, hcz, hcw, hcv, hcu]
    exact mtch_anchor_nil (Or.inl rfl) hu ▸ rfl
  obtain ⟨hall, hne, hcaps0⟩ := mem_starOuts hog
  refine ⟨og.1, by simp [hcaps0, hrest], ?_⟩
  exact exists_nonWs_of_all (hne rfl) hall
    (fun c hc => not_ws_of_pred (by decide) hc)

/-- The captured group of the semester pattern contains a non-whitespace
character (roman-numeral letters or a digit 1-8). -/
theorem caps_of_rxSemesterX {pv s' o} (h : o ∈ mtch rxSemesterX pv s') :
    ∃ g, o.2.2 = [(1, g)] ∧ ∃ c ∈ g, wsB c = false := by
  simp only [rxSemesterX, seqs, List.foldr_cons, List.foldr_nil] at h
  obtain ⟨pv1, rs1, o1, h1, hc1, -⟩ := mem_mtch_seq_capsFree (by rfl) h
  obtain ⟨pv2, rs2, o2, h2, hc2, -⟩ := mem_mtch_seq_capsFree (by rfl) h1
  obtain ⟨pv3, rs3, o3, h3, hc3, -⟩ := mem_mtch_seq_capsFree (by rfl) h2
  obtain ⟨pv4, rs4, o4, h4, hc4, -⟩ := mem_mtch_seq_capsFree (by rfl) h3
  obtain ⟨og, hog, hcg⟩ := caps_of_grp_end (by rfl) h4
  refine ⟨og.1, by rw [hc1, hc2, hc3, hc4, hcg], ?_⟩
  rcases mem_mtch_alt hog with hg | hg
  · obtain ⟨hall, hne, -⟩ := mem_starOuts hg
    exact exists_nonWs_of_all (hne rfl) hall
      (fun c hc => not_ws_of_pred (by decide) hc)
  · obtain ⟨c, t, -, hpc, rfl⟩ := mem_mtch_cls hg
    exact ⟨c, List.mem_cons_self _ _, not_ws_of_pred (by decide) hpc⟩

/-- The captured group of the course-code pattern contains a non-whitespace
character (it starts with an uppercase letter). -/
theorem caps_of_rxCourseCode {pv s' o} (h : o ∈ mtch rxCourseCode pv s') :
    ∃ g, o.2.2 = [(1, g)] ∧ ∃ c ∈ g, wsB c = false := by
  rw [rxCourseCode] at h
  obtain ⟨og, hog, rfl⟩ := mem_mtch_grp h
  have hfree : og.2.2 = [] := mtch_grpFree_caps (by rfl) hog
  refine ⟨og.1, by simp [hfree], ?_⟩
  have hhead : ∃ c rest', og.1 = c :: rest' ∧ upperB c = true := by
    rcases mem_mtch_alt hog with hg | hg <;>
    · simp only [seqs, List.foldr_cons, List.foldr_nil] at hg
      obtain ⟨o1, o2, h1, h2, rfl⟩ := mem_mtch_seq hg
      simp only [rxU24, seqs, List.foldr_cons, List.foldr_nil] at h1
      obtain ⟨o11, o12, h11, h12, rfl⟩ := mem_mtch_seq h1
      obtain ⟨c, t, -, hpc, rfl⟩ := mem_mtch_cls h11
      exact ⟨c, _, rfl, hpc⟩
  obtain ⟨c, rest', heq, hup⟩ := hhead
  rw [heq]
  exact ⟨c, List.mem_cons_self _ _, not_ws_of_pred (by decide) hup⟩

theorem pyStrip_ne_nil {g : Str} (h : ∃ c ∈ g, wsB c = false) :
    pyStrip g ≠ [] := by
  rcases h with ⟨c, hc, hw⟩
  intro hnil
  unfold pyStrip at hnil
  rw [List.reverse_eq_nil_iff, List.dropWhile_eq_nil_iff] at hnil
  have hall : ∀ x ∈ g, wsB x = true := by
    intro x hx
    rw [← List.takeWhile_append_dropWhile wsB g] at hx
    rcases List.mem_append.mp hx with hx | hx
    · exact List.mem_takeWhile_imp hx
    · exact hnil x (List.mem_reverse.mpr hx)
  rw [hall c hc] at hw
  cases hw

/-- The common assembly: if every match of `r` carries exactly one capture,
group 1, containing a non-whitespace character, then `searchGroup r t 1`
never returns a string that strips to empty. -/
theorem searchGroup_nonWs {r : Rx}
    (hr : ∀ {pv s' o}, o ∈ mtch r pv s' →
      ∃ g, o.2.2 = [(1, g)] ∧ ∃ c ∈ g, wsB c = false)
    {t : Str} {g : Str} (h : searchGroup r t 1 = some g) :
    ∃ c ∈ g, wsB c = false := by
  unfold searchGroup reSearch at h
  cases hs : searchFrom r none t with
  | none => rw [hs] at h; simp at h
  | some res =>
    rw [hs] at h
    simp only [Option.some_bind, Option.map_eq_some'] at h
    obtain ⟨entry, hfind, hg⟩ := h
    obtain ⟨pv, s', hm⟩ := searchFrom_mem hs
    obtain ⟨g', hcaps, hnw⟩ := hr hm
    rw [hcaps] at hfind
    have hentry : (1, g') = entry := by
      simpa using hfind
    rw [← hentry] at hg
    rw [← hg]
    exact hnw

/-- C7, amended.  `extract_subject_info` never binds `course_code`,
`credits`, `semester` or `teaching_hours` to the empty string: the regex
group of each of these four fields always contains a non-whitespace
character, so stripping it never yields `""`.  (The `course_name` and
`course_type` fields, by contrast, can be empty — see the counterexample.) -/
theorem c7_code_credit_semester_hours_fields_nonempty (s : String) :
    (extract_subject_info s).course_code ≠ some "" ∧
    (extract_subject_info s).credits ≠ some "" ∧
    (extract_subject_info s).semester ≠ some "" ∧
    (extract_subject_info s).teaching_hours ≠ some "" := by
  unfold extract_subject_info extractSubjectInfoL
  refine ⟨?_, ?_, ?_, ?_⟩ <;>
    simp only [ne_eq, Option.map_eq_some', not_exists, not_and] <;>
    intro g hg heq
  · have := pyStrip_ne_nil (searchGroup_nonWs (fun h => caps_of_rxCourseCode h) hg)
    exact this (congrArg String.data heq)
  · have := pyStrip_ne_nil (searchGroup_nonWs (fun h => caps_of_rxCreditsX h) hg)
    exact this (congrArg String.data heq)
  · have hne := pyStrip_ne_nil (searchGroup_nonWs (fun h => caps_of_rxSemesterX h) hg)
    have heq' : (pyStrip g).map Char.toLower = [] := congrArg String.data heq
    rw [List.map_eq_nil_iff] at heq'
    exact hne heq'
  · have := pyStrip_ne_nil (searchGroup_nonWs (fun h => caps_of_rxHoursX h) hg)
    exact this (congrArg String.data heq)

/-! ## C8: idempotence analysis of `clean_text`

The counterexample above shows `clean_text` is not idempotent (trimming can
expose a page-number line).  The remainder of this section proves the
amended claim: on inputs with no decimal digits, `clean_text` is idempotent.
-/

theorem runSplit_append (p : Char → Bool) :
    ∀ l : Str, (runSplit p l).1 ++ (runSplit p l).2 = l := by
  intro l
  induction l with
  | nil => rfl
  | cons c t ih =>
    rw [runSplit]
    split
    · simpa using ih
    · rfl

theorem mem_starOuts_decomp {p : Char → Bool} {rest : Str} {lazy one : Bool}
    {o} (h : o ∈ starOuts p rest lazy one) : rest = o.1 ++ o.2.1 := by
  rcases hrs : runSplit p rest with ⟨run, r2⟩
  rw [starOuts, hrs] at h
  simp only [List.mem_map] at h
  obtain ⟨k, -, rfl⟩ := h
  have hra := runSplit_append p rest
  rw [hrs] at hra
  simp only []
  rw [← List.append_assoc, List.take_append_drop]
  exact hra.symm

/-- Every match consumes a prefix: `rest = consumed ++ remainder`. -/
theorem mtch_decomp {r : Rx} :
    ∀ {prev rest o}, o ∈ mtch r prev rest → rest = o.1 ++ o.2.1 := by
  induction r with
  | eps => intro prev rest o h; rw [mtch_anchor_nil (Or.inl rfl) h]; rfl
  | cls p =>
    intro prev rest o h
    obtain ⟨c, t, rfl, -, rfl⟩ := mem_mtch_cls h
    rfl
  | alt a b iha ihb =>
    intro prev rest o h
    rcases mem_mtch_alt h with h | h
    · exact iha h
    · exact ihb h
  | seq a b iha ihb =>
    intro prev rest o h
    obtain ⟨o1, o2, h1, h2, rfl⟩ := mem_mtch_seq h
    have e1 := iha h1
    have e2 := ihb h2
    simp only []
    rw [List.append_assoc, ← e2, ← e1]
  | opt a iha =>
    intro prev rest o h
    rcases mem_mtch_opt h with h | rfl
    · exact iha h
    · rfl
  | star p =>
    intro prev rest o h
    rw [mtch] at h
    exact mem_starOuts_decomp h
  | starL p =>
    intro prev rest o h
    rw [mtch] at h
    exact mem_starOuts_decomp h
  | plus p =>
    intro prev rest o h
    rw [mtch] at h
    exact mem_starOuts_decomp h
  | plusL p =>
    intro prev rest o h
    rw [mtch] at h
    exact mem_starOuts_decomp h
  | grp n a iha =>
    intro prev rest o h
    obtain ⟨o', h', rfl⟩ := mem_mtch_grp h
    have e := iha h'
    exact e
  | bolM => intro prev rest o h; rw [mtch_anchor_nil (by simp) h]; rfl
  | eolM => intro prev rest o h; rw [mtch_anchor_nil (by simp) h]; rfl
  | bolS => intro prev rest o h; rw [mtch_anchor_nil (by simp) h]; rfl
  | eolS => intro prev rest o h; rw [mtch_anchor_nil (by simp) h]; rfl

theorem searchFrom_decomp {r : Rx} :
    ∀ {prev s res}, searchFrom r prev s = some res →
      s = res.1 ++ res.2.1 ++ res.2.2.1 := by
  intro prev s
  induction s generalizing prev with
  | nil =>
    intro res h
    rw [searchFrom] at h
    split at h
    · rename_i o tl ho
      injection h with h'
      subst h'
      have := mtch_decomp (ho ▸ List.mem_cons_self o tl)
      simpa using this
    · simp at h
  | cons a t ih =>
    intro res h
    rw [searchFrom] at h
    split at h
    · rename_i o tl ho
      injection h with h'
      subst h'
      have := mtch_decomp (ho ▸ List.mem_cons_self o tl)
      simpa using this
    · simp only [Option.map_eq_some'] at h
      obtain ⟨o, ho, heq⟩ := h
      subst heq
      have := ih ho
      simp only [List.cons_append]
      rw [← this]

/-- If the pattern never matches anywhere in `s`, substitution is the
identity. -/
theorem subAllF_no_match {r : Rx} {fuel : Nat} {repl : Str} {prev : Option Char}
    {s : Str} (h : searchFrom r prev s = none) :
    subAllF fuel r repl prev s = s := by
  cases fuel with
  | zero => rfl
  | succ n => rw [subAllF, h]

/-- A match of the page-number pattern always contains a digit. -/
theorem rxPageDigits_has_digit {pv s' o} (h : o ∈ mtch rxPageDigits pv s') :
    ∃ c ∈ o.1, digitB c = true := by
  simp only [rxPageDigits, seqs, List.foldr_cons, List.foldr_nil] at h
  obtain ⟨o1, o2, h1, h2, rfl⟩ := mem_mtch_seq h
  obtain ⟨o3, o4, h3, h4, rfl⟩ := mem_mtch_seq h2
  obtain ⟨o5, o6, h5, h6, rfl⟩ := mem_mtch_seq h4
  obtain ⟨o7, o8, h7, h8, rfl⟩ := mem_mtch_seq h6
  obtain ⟨halld, hned, -⟩ := mem_starOuts h7
  obtain ⟨c, hc⟩ := List.exists_mem_of_ne_nil _ (hned rfl)
  refine ⟨c, ?_, halld c hc⟩
  simp only [List.mem_append]
  exact Or.inr (Or.inr (Or.inr (Or.inl hc)))

/-- A match of the `Page N` pattern always contains a digit. -/
theorem rxPageWord_has_digit {pv s' o} (h : o ∈ mtch rxPageWord pv s') :
    ∃ c ∈ o.1, digitB c = true := by
  simp only [rxPageWord, seqs, List.foldr_cons, List.foldr_nil] at h
  obtain ⟨o1, o2, h1, h2, rfl⟩ := mem_mtch_seq h
  obtain ⟨o3, o4, h3, h4, rfl⟩ := mem_mtch_seq h2
  obtain ⟨o5, o6, h5, h6, rfl⟩ := mem_mtch_seq h4
  obtain ⟨o7, o8, h7, h8, rfl⟩ := mem_mtch_seq h6
  obtain ⟨o9, o10, h9, h10, rfl⟩ := mem_mtch_seq h8
  obtain ⟨halld, hned, -⟩ := mem_starOuts h9
  obtain ⟨c, hc⟩ := List.exists_mem_of_ne_nil _ (hned rfl)
  refine ⟨c, ?_, halld c hc⟩
  simp only [List.mem_append]
  exact Or.inr (Or.inr (Or.inr (Or.inr (Or.inl hc))))

/-- If every match of `r` contains a `Q`-character and `s` has none, the
search fails. -/
theorem searchFrom_eq_none {r : Rx} {Q : Char → Bool}
    (hr : ∀ {pv s' o}, o ∈ mtch r pv s' → ∃ c ∈ o.1, Q c = true)
    {prev : Option Char} {s : Str} (hs : ∀ c ∈ s, Q c = false) :
    searchFrom r prev s = none := by
  cases hfind : searchFrom r prev s with
  | none => rfl
  | some res =>
    obtain ⟨pv, s', hm⟩ := searchFrom_mem hfind
    obtain ⟨c, hc, hQ⟩ := hr hm
    have hdec := searchFrom_decomp hfind
    have hmem : c ∈ s := by
      rw [hdec]
      exact List.mem_append_left _ (List.mem_append_right _ hc)
    rw [hs c hmem] at hQ
    cases hQ

/-- Whitespace, newline excluded. -/
def allWsNN (w : Str) : Prop := ∀ c ∈ w, wsB c = true ∧ c ≠ '\n'

/-- Three newlines separated only by newline-free whitespace: the shape the
blank-line collapsing pattern `\n\s*\n\s*\n+` fires on. -/
def BadM (s : Str) : Prop :=
  ∃ u w₁ w₂ v, s = u ++ '\n' :: (w₁ ++ '\n' :: (w₂ ++ '\n' :: v)) ∧
    allWsNN w₁ ∧ allWsNN w₂

/-- A whitespace string is newline-free or splits at its first newline. -/
theorem nlSplit {w : Str} (hw : ∀ c ∈ w, wsB c = true) :
    (∀ c ∈ w, c ≠ '\n') ∨
      ∃ w₁ w₂, w = w₁ ++ '\n' :: w₂ ∧ allWsNN w₁ ∧ ∀ c ∈ w₂, wsB c = true := by
  induction w with
  | nil => exact Or.inl (by intro c hc; cases hc)
  | cons a t ih =>
    by_cases ha : a = '\n'
    · subst ha
      exact Or.inr ⟨[], t, rfl, (by intro c hc; cases hc),
        fun c hc => hw c (List.mem_cons_of_mem _ hc)⟩
    · rcases ih (fun c hc => hw c (List.mem_cons_of_mem _ hc)) with hfree | hsplit
      · refine Or.inl ?_
        intro c hc
        rcases List.mem_cons.mp hc with rfl | hc
        · exact ha
        · exact hfree c hc
      · obtain ⟨w₁, w₂, rfl, h₁, h₂⟩ := hsplit
        refine Or.inr ⟨a :: w₁, w₂, rfl, ?_, h₂⟩
        intro c hc
        rcases List.mem_cons.mp hc with rfl | hc
        · exact ⟨hw c (List.mem_cons_self _ _), ha⟩
        · exact h₁ c hc

/-- The general three-newline shape (whitespace separators possibly
containing newlines) reduces to `BadM`. -/
theorem bad_to_badM {s : Str} {u a b v : Str}
    (hs : s = u ++ '\n' :: (a ++ '\n' :: (b ++ '\n' :: v)))
    (ha : ∀ c ∈ a, wsB c = true) (hb : ∀ c ∈ b, wsB c = true) : BadM s := by
  rcases nlSplit ha with hafree | ⟨a₁, a₂, rfl, ha₁, ha₂⟩
  · rcases nlSplit hb with hbfree | ⟨b₁, b₂, rfl, hb₁, hb₂⟩
    · exact ⟨u, a, b, v, hs, fun c hc => ⟨ha c hc, hafree c hc⟩,
        fun c hc => ⟨hb c hc, hbfree c hc⟩⟩
    · refine ⟨u, a, b₁, b₂ ++ '\n' :: v, ?_,
        fun c hc => ⟨ha c hc, hafree c hc⟩, hb₁⟩
      rw [hs]
      simp [List.append_assoc]
  · rcases nlSplit ha₂ with hfree2 | ⟨c₁, c₂, rfl, hc₁, hc₂⟩
    · refine ⟨u, a₁, a₂, b ++ '\n' :: v, ?_, ha₁,
        fun c hc => ⟨ha₂ c hc, hfree2 c hc⟩⟩
      rw [hs]
      simp [List.append_assoc]
    · refine ⟨u, a₁, c₁, c₂ ++ '\n' :: (b ++ '\n' :: v), ?_, ha₁, hc₁⟩
      rw [hs]
      simp [List.append_assoc]

/-- What the blank-line pattern consumes: a newline, whitespace, a newline,
whitespace, and a nonempty newline run. -/
theorem rxBlank3_consumed {pv s' o} (h : o ∈ mtch rxBlank3 pv s') :
    ∃ a b n2, o.1 = '\n' :: (a ++ '\n' :: (b ++ '\n' :: n2)) ∧
      (∀ c ∈ a, wsB c = true) ∧ (∀ c ∈ b, wsB c = true) := by
  simp only [rxBlank3, seqs, List.foldr_cons, List.foldr_nil] at h
  obtain ⟨o1, o2, h1, h2, ho⟩ := mem_mtch_seq h
  obtain ⟨o3, o4, h3, h4, ho2⟩ := mem_mtch_seq h2
  obtain ⟨o5, o6, h5, h6, ho4⟩ := mem_mtch_seq h4
  obtain ⟨o7, o8, h7, h8, ho6⟩ := mem_mtch_seq h6
  obtain ⟨o9, o10, h9, h10, ho8⟩ := mem_mtch_seq h8
  obtain ⟨c1, t1, -, hp1, hoc1⟩ := mem_mtch_cls h1
  obtain ⟨c2, t2, -, hp2, hoc2⟩ := mem_mtch_cls h5
  obtain ⟨hall3, -, -⟩ := mem_starOuts h3
  obtain ⟨hall7, -, -⟩ := mem_starOuts h7
  obtain ⟨hall9, hne9, -⟩ := mem_starOuts h9
  have he := mtch_anchor_nil (Or.inl rfl) h10
  have hc1 : c1 = '\n' := by simpa [nlB] using hp1
  have hc2 : c2 = '\n' := by simpa [nlB] using hp2
  rcases hrun : o9.1 with _ | ⟨c9, t9⟩
  · exact absurd hrun (hne9 rfl)
  have hc9 : c9 = '\n' := by
    have := hall9 c9 (by rw [hrun]; exact List.mem_cons_self _ _)
    simpa [nlB] using this
  refine ⟨o3.1, o7.1, t9 ++ o10.1, ?_,
    fun c hc => hall3 c hc, fun c hc => hall7 c hc⟩
  have e1 : o.1 = o1.1 ++ o2.1 := by rw [ho]
  have e2 : o2.1 = o3.1 ++ o4.1 := by rw [ho2]
  have e3 : o4.1 = o5.1 ++ o6.1 := by rw [ho4]
  have e4 : o6.1 = o7.1 ++ o8.1 := by rw [ho6]
  have e5 : o8.1 = o9.1 ++ o10.1 := by rw [ho8]
  have e6 : o1.1 = ['\n'] := by rw [hoc1, hc1]
  have e7 : o5.1 = ['\n'] := by rw [hoc2, hc2]
  have e8 : o10.1 = [] := by rw [he]
  rw [e1, e2, e3, e4, e5, e6, e7, e8, hrun, hc9]
  simp

/-- Without the three-newline shape, the blank-line pattern cannot match. -/
theorem searchFrom_rxBlank3_none {prev : Option Char} {s : Str}
    (h : ¬ BadM s) : searchFrom rxBlank3 prev s = none := by
  cases hfind : searchFrom rxBlank3 prev s with
  | none => rfl
  | some res =>
    obtain ⟨pv, s', hm⟩ := searchFrom_mem hfind
    obtain ⟨a, b, n2, hcons, ha, hb⟩ := rxBlank3_consumed hm
    have hdec := searchFrom_decomp hfind
    refine absurd (@bad_to_badM s res.1 a b (n2 ++ res.2.2.1) ?_ ha hb) h
    rw [hdec, hcons]
    simp [List.append_assoc]

/-! ### Lines: `splitNl` / `joinNl` -/

theorem splitNl_ne_nil : ∀ t : Str, splitNl t ≠ [] := by
  intro t
  induction t with
  | nil => simp [splitNl]
  | cons c t ih =>
    rw [splitNl]
    split
    · simp
    · split
      · simp
      · simp

theorem joinNl_single (l : Str) : joinNl [l] = l := by
  simp [joinNl, List.intersperse]

theorem joinNl_cons {M : List Str} (hM : M ≠ []) (l : Str) :
    joinNl (l :: M) = l ++ '\n' :: joinNl M := by
  cases M with
  | nil => exact absurd rfl hM
  | cons m M' =>
    simp [joinNl, List.intersperse_cons_cons]

theorem joinNl_splitNl : ∀ t : Str, joinNl (splitNl t) = t := by
  intro t
  induction t with
  | nil => simp [splitNl, joinNl, List.intersperse]
  | cons c t ih =>
    rw [splitNl]
    split
    · rename_i hc
      rw [joinNl_cons (splitNl_ne_nil t), ih, hc]
      rfl
    · rcases hsp : splitNl t with _ | ⟨h, r⟩
      · exact absurd hsp (splitNl_ne_nil t)
      · rw [hsp] at ih
        cases r with
        | nil =>
          rw [joinNl_single] at ih
          simp [joinNl_single, ih]
        | cons r0 rs =>
          rw [joinNl_cons (by simp)] at ih
          rw [joinNl_cons (by simp)]
          simp only [List.cons_append]
          rw [ih]

theorem splitNl_nlFree : ∀ (t : Str), ∀ l ∈ splitNl t, ∀ c ∈ l, c ≠ '\n' := by
  intro t
  induction t with
  | nil =>
    intro l hl c hc
    simp [splitNl] at hl
    subst hl
    cases hc
  | cons a t ih =>
    intro l hl c hc
    rw [splitNl] at hl
    split at hl
    · rcases List.mem_cons.mp hl with rfl | hl
      · cases hc
      · exact ih l hl c hc
    · rename_i ha
      rcases hsp : splitNl t with _ | ⟨h, r⟩
      · exact absurd hsp (splitNl_ne_nil t)
      · rw [hsp] at hl
        rcases List.mem_cons.mp hl with rfl | hl
        · rcases List.mem_cons.mp hc with rfl | hc
          · exact ha
          · exact ih h (by rw [hsp]; exact List.mem_cons_self _ _) c hc
        · exact ih l (by rw [hsp]; exact List.mem_cons_of_mem _ hl) c hc

theorem splitNl_of_nlFree : ∀ {l : Str}, (∀ c ∈ l, c ≠ '\n') → splitNl l = [l] := by
  intro l
  induction l with
  | nil => intro h; rfl
  | cons c t ih =>
    intro h
    rw [splitNl]
    rw [if_neg (h c (List.mem_cons_self _ _))]
    rw [ih (fun d hd => h d (List.mem_cons_of_mem _ hd))]

theorem splitNl_append_nl : ∀ {l rest : Str}, (∀ c ∈ l, c ≠ '\n') →
    splitNl (l ++ '\n' :: rest) = l :: splitNl rest := by
  intro l
  induction l with
  | nil =>
    intro rest h
    simp [splitNl]
  | cons c t ih =>
    intro rest h
    simp only [List.cons_append]
    rw [splitNl]
    rw [if_neg (h c (List.mem_cons_self _ _))]
    rw [ih (fun d hd => h d (List.mem_cons_of_mem _ hd))]

theorem splitNl_joinNl : ∀ {M : List Str}, M ≠ [] →
    (∀ l ∈ M, ∀ c ∈ l, c ≠ '\n') → splitNl (joinNl M) = M := by
  intro M
  induction M with
  | nil => intro h; exact absurd rfl h
  | cons l M' ih =>
    intro _ h
    cases M' with
    | nil =>
      rw [joinNl_single]
      exact splitNl_of_nlFree (h l (List.mem_cons_self _ _))
    | cons m M'' =>
      rw [joinNl_cons (by simp)]
      rw [splitNl_append_nl (h l (List.mem_cons_self _ _))]
      rw [ih (by simp) (fun x hx => h x (List.mem_cons_of_mem _ hx))]

/-! ### Character provenance -/

theorem mem_joinNl_of {c : Char} {l : Str} {M : List Str} (hl : l ∈ M)
    (hc : c ∈ l) : c ∈ joinNl M := by
  induction M with
  | nil => cases hl
  | cons m M' ih =>
    cases M' with
    | nil =>
      rcases List.mem_cons.mp hl with rfl | hl
      · rwa [joinNl_single]
      · cases hl
    | cons m2 M'' =>
      rw [joinNl_cons (by simp)]
      rcases List.mem_cons.mp hl with rfl | hl
      · exact List.mem_append_left _ hc
      · exact List.mem_append_right _ (List.mem_cons_of_mem _ (ih hl))

theorem mem_joinNl {c : Char} {M : List Str} (h : c ∈ joinNl M) :
    (∃ l ∈ M, c ∈ l) ∨ c = '\n' := by
  induction M with
  | nil => cases h
  | cons m M' ih =>
    cases M' with
    | nil =>
      rw [joinNl_single] at h
      exact Or.inl ⟨m, List.mem_cons_self _ _, h⟩
    | cons m2 M'' =>
      rw [joinNl_cons (by simp)] at h
      rcases List.mem_append.mp h with h | h
      · exact Or.inl ⟨m, List.mem_cons_self _ _, h⟩
      · rcases List.mem_cons.mp h with rfl | h
        · exact Or.inr rfl
        · rcases ih h with ⟨l, hl, hc⟩ | rfl
          · exact Or.inl ⟨l, List.mem_cons_of_mem _ hl, hc⟩
          · exact Or.inr rfl

theorem mem_splitNl_subset {t : Str} {l : Str} {c : Char}
    (hl : l ∈ splitNl t) (hc : c ∈ l) : c ∈ t := by
  have := mem_joinNl_of hl hc
  rwa [joinNl_splitNl] at this

theorem pyStrip_subset {x : Str} {c : Char} (h : c ∈ pyStrip x) : c ∈ x := by
  unfold pyStrip at h
  rw [List.mem_reverse] at h
  have h2 := (List.dropWhile_sublist wsB).subset h
  rw [List.mem_reverse] at h2
  exact (List.dropWhile_sublist wsB).subset h2

theorem subAllF_chars {r : Rx} {repl : Str} :
    ∀ (fuel : Nat) {prev : Option Char} {s : Str} {c : Char},
      c ∈ subAllF fuel r repl prev s → c ∈ s ∨ c ∈ repl := by
  intro fuel
  induction fuel with
  | zero => intro prev s c h; exact Or.inl h
  | succ n ih =>
    intro prev s c h
    rw [subAllF] at h
    split at h
    · exact Or.inl h
    · rename_i pre cns rest k hsf
      have hdec := searchFrom_decomp hsf
      rcases List.mem_append.mp h with h | h
      · rcases List.mem_append.mp h with h | h
        · refine Or.inl ?_
          rw [hdec]
          exact List.mem_append_left _ (List.mem_append_left _ h)
        · exact Or.inr h
      · rcases ih h with h | h
        · refine Or.inl ?_
          rw [hdec]
          exact List.mem_append_right _ h
        · exact Or.inr h

theorem normLine_chars {l : Str} {c : Char} (h : c ∈ normLine l) :
    c ∈ l ∨ c = ' ' := by
  unfold normLine at h
  split at h
  · exact Or.inl h
  · have h2 := pyStrip_subset h
    rcases subAllF_chars _ h2 with h3 | h3
    · exact Or.inl h3
    · simp only [List.mem_singleton] at h3
      exact Or.inr h3

/-! ### `pyStrip` structure -/

theorem dropWhile_head_false {p : Char → Bool} {z : Str} {c : Char} {l' : Str}
    (h : z.dropWhile p = c :: l') : p c = false := by
  have := List.head?_dropWhile_not p z
  rw [h] at this
  simpa using this

theorem dropWhile_dropWhile (p : Char → Bool) (l : Str) :
    (l.dropWhile p).dropWhile p = l.dropWhile p := by
  cases h : l.dropWhile p with
  | nil => rfl
  | cons c t => rw [List.dropWhile_cons_of_neg]; simp [dropWhile_head_false h]

theorem pyStrip_head_false {x : Str} {c : Char} {l' : Str}
    (h : pyStrip x = c :: l') : wsB c = false := by
  have hpre : ∃ w, x.dropWhile wsB = pyStrip x ++ w := by
    refine ⟨((x.dropWhile wsB).reverse.takeWhile wsB).reverse, ?_⟩
    unfold pyStrip
    rw [← List.reverse_append, List.takeWhile_append_dropWhile,
      List.reverse_reverse]
  obtain ⟨w, hw⟩ := hpre
  rw [h] at hw
  exact dropWhile_head_false hw

theorem pyStrip_idem (x : Str) : pyStrip (pyStrip x) = pyStrip x := by
  have step1 : (pyStrip x).dropWhile wsB = pyStrip x := by
    cases hps : pyStrip x with
    | nil => rfl
    | cons c l' =>
      rw [List.dropWhile_cons_of_neg]
      simp [pyStrip_head_false hps]
  have step2 : (pyStrip x).reverse = ((x.dropWhile wsB).reverse).dropWhile wsB := by
    unfold pyStrip
    rw [List.reverse_reverse]
  show (((pyStrip x).dropWhile wsB).reverse.dropWhile wsB).reverse = pyStrip x
  rw [step1, step2, dropWhile_dropWhile, ← step2, List.reverse_reverse]

theorem allWs_of_pyStrip_nil {x : Str} (h : pyStrip x = []) :
    ∀ c ∈ x, wsB c = true := by
  unfold pyStrip at h
  rw [List.reverse_eq_nil_iff, List.dropWhile_eq_nil_iff] at h
  intro c hc
  rw [← List.takeWhile_append_dropWhile wsB x] at hc
  rcases List.mem_append.mp hc with hc | hc
  · exact List.mem_takeWhile_imp hc
  · exact h c (List.mem_reverse.mpr hc)

theorem pyStrip_nil_of_allWs {x : Str} (h : ∀ c ∈ x, wsB c = true) :
    pyStrip x = [] := by
  unfold pyStrip
  rw [List.dropWhile_eq_nil_iff.mpr h]
  rfl

theorem pyStrip_allWs_imp_nil {x : Str}
    (h : ∀ c ∈ pyStrip x, wsB c = true) : pyStrip x = [] := by
  cases hps : pyStrip x with
  | nil => rfl
  | cons c l' =>
    have := h c (by rw [hps]; exact List.mem_cons_self _ _)
    rw [pyStrip_head_false hps] at this
    cases this

theorem pyStrip_decomp (x : Str) :
    ∃ u v, x = u ++ pyStrip x ++ v ∧ (∀ c ∈ u, wsB c = true) ∧
      ∀ c ∈ v, wsB c = true := by
  refine ⟨x.takeWhile wsB, ((x.dropWhile wsB).reverse.takeWhile wsB).reverse,
    ?_, fun c hc => List.mem_takeWhile_imp hc, ?_⟩
  · have hkey : x.dropWhile wsB =
        pyStrip x ++ ((x.dropWhile wsB).reverse.takeWhile wsB).reverse := by
      unfold pyStrip
      rw [← List.reverse_append, List.takeWhile_append_dropWhile,
        List.reverse_reverse]
    rw [List.append_assoc, ← hkey]
    exact (List.takeWhile_append_dropWhile wsB x).symm
  · intro c hc
    rw [List.mem_reverse] at hc
    exact List.mem_takeWhile_imp hc

/-! ### `normLine` facts -/

/-- The table-marker characters are not whitespace, so a table line is never
all-whitespace. -/
theorem isTableLine_not_allWs {l : Str} (h : isTableLine l = true) :
    ∃ c ∈ l, wsB c = false := by
  unfold isTableLine at h
  simp only [Bool.or_eq_true] at h
  rcases h with ((((((h | h) | h) | h) | h) | h) | h) <;>
    exact ⟨_, by simpa using h, by decide⟩

/-- Non-space-tab characters survive space collapsing. -/
theorem subAllF_spaceTab_keeps :
    ∀ (fuel : Nat) {prev : Option Char} {s : Str} {c : Char}, c ∈ s →
      spTabB c = false → c ∈ subAllF fuel rxSpaceTab [' '] prev s := by
  intro fuel
  induction fuel with
  | zero => intro prev s c hc _; exact hc
  | succ n ih =>
    intro prev s c hc hnst
    rw [subAllF]
    split
    · exact hc
    · rename_i pre cns rest k hsf
      have hdec := searchFrom_decomp hsf
      rw [hdec] at hc
      rcases List.mem_append.mp hc with hc' | hc'
      · rcases List.mem_append.mp hc' with hc'' | hc''
        · exact List.mem_append_left _ (List.mem_append_left _ hc'')
        · obtain ⟨pv, s', hm⟩ := searchFrom_mem hsf
          rw [rxSpaceTab, mtch] at hm
          obtain ⟨hall, -, -⟩ := mem_starOuts hm
          rw [hall c hc''] at hnst
          cases hnst
      · exact List.mem_append_right _ (ih hc' hnst)

/-- If the normalized form of a line is all-whitespace, so was the line. -/
theorem allWs_of_normLine_allWs {l : Str}
    (h : ∀ c ∈ normLine l, wsB c = true) : ∀ c ∈ l, wsB c = true := by
  unfold normLine at h
  split at h
  · exact h
  · intro c hc
    by_contra hnw
    rw [Bool.not_eq_true] at hnw
    have hnst : spTabB c = false := by
      rcases hst : spTabB c with _ | _
      · rfl
      · have : wsB c = true := by
          simp only [spTabB, Bool.or_eq_true, decide_eq_true_eq] at hst
          rcases hst with rfl | rfl <;> rfl
        rw [this] at hnw
        cases hnw
    have hmem : c ∈ subAllT rxSpaceTab [' '] l :=
      subAllF_spaceTab_keeps _ hc hnst
    have hnil := pyStrip_allWs_imp_nil h
    have := allWs_of_pyStrip_nil hnil c hmem
    rw [this] at hnw
    cases hnw

/-! ### `BadM` and line structure -/

theorem badM_mem_nl {s : Str} (h : BadM s) : '\n' ∈ s := by
  obtain ⟨u, w₁, w₂, v, rfl, -, -⟩ := h
  exact List.mem_append_right _ (List.mem_cons_self _ _)

theorem badM_append {x u v : Str} (h : BadM x) : BadM (u ++ x ++ v) := by
  obtain ⟨u₀, w₁, w₂, v₀, rfl, h₁, h₂⟩ := h
  exact ⟨u ++ u₀, w₁, w₂, v₀ ++ v, by simp [List.append_assoc], h₁, h₂⟩

theorem nlFree_prefix_eq : ∀ {x y p q : Str}, (∀ c ∈ x, c ≠ '\n') →
    (∀ c ∈ y, c ≠ '\n') → x ++ '\n' :: p = y ++ '\n' :: q → x = y ∧ p = q := by
  intro x
  induction x with
  | nil =>
    intro y p q _ hy h
    cases y with
    | nil => simpa using h
    | cons b y' =>
      simp only [List.nil_append, List.cons_append, List.cons.injEq] at h
      exact absurd h.1.symm (hy b (List.mem_cons_self _ _))
  | cons a x' ih =>
    intro y p q hx hy h
    cases y with
    | nil =>
      simp only [List.cons_append, List.nil_append, List.cons.injEq] at h
      exact absurd h.1 (hx a (List.mem_cons_self _ _))
    | cons b y' =>
      simp only [List.cons_append, List.cons.injEq] at h
      obtain ⟨rfl, h2⟩ := h
      obtain ⟨rfl, rfl⟩ := ih (fun c hc => hx c (List.mem_cons_of_mem _ hc))
        (fun c hc => hy c (List.mem_cons_of_mem _ hc)) h2
      exact ⟨rfl, rfl⟩

/-- Align the first newline of an occurrence with the first line separator. -/
theorem nl_align : ∀ {l : Str} {J2 u R : Str}, (∀ c ∈ l, c ≠ '\n') →
    l ++ '\n' :: J2 = u ++ '\n' :: R →
    (u = l ∧ R = J2) ∨ ∃ u2, u = l ++ '\n' :: u2 ∧ J2 = u2 ++ '\n' :: R := by
  intro l
  induction l with
  | nil =>
    intro J2 u R _ h
    cases u with
    | nil =>
      simp only [List.nil_append, List.cons.injEq] at h
      exact Or.inl ⟨rfl, h.2.symm⟩
    | cons b u2 =>
      simp only [List.nil_append, List.cons_append, List.cons.injEq] at h
      obtain ⟨hb, h2⟩ := h
      exact Or.inr ⟨u2, by rw [← hb]; rfl, h2⟩
  | cons a l2 ih =>
    intro J2 u R hl h
    cases u with
    | nil =>
      simp only [List.cons_append, List.nil_append, List.cons.injEq] at h
      exact absurd h.1 (hl a (List.mem_cons_self _ _))
    | cons b u2 =>
      simp only [List.cons_append, List.cons.injEq] at h
      obtain ⟨rfl, h2⟩ := h
      rcases ih (fun c hc => hl c (List.mem_cons_of_mem _ hc)) h2 with
        ⟨rfl, rfl⟩ | ⟨u3, rfl, hJ⟩
      · exact Or.inl ⟨rfl, rfl⟩
      · exact Or.inr ⟨u3, rfl, hJ⟩

theorem badM_joinNl : ∀ {M : List Str},
    (∀ l ∈ M, ∀ c ∈ l, c ≠ '\n') → BadM (joinNl M) →
    ∃ A w₁ w₂ B, M = A ++ w₁ :: w₂ :: B ∧ A ≠ [] ∧ B ≠ [] ∧
      (∀ c ∈ w₁, wsB c = true) ∧ (∀ c ∈ w₂, wsB c = true) := by
  intro M
  induction M with
  | nil =>
    intro _ h
    have := badM_mem_nl h
    simp [joinNl, List.intersperse] at this
  | cons l M1 ih =>
    intro hfree h
    cases M1 with
    | nil =>
      rw [joinNl_single] at h
      exact absurd (badM_mem_nl h)
        (fun hmem => hfree l (List.mem_cons_self _ _) '\n' hmem rfl)
    | cons m M2 =>
      rw [joinNl_cons (by simp)] at h
      obtain ⟨u, w₁, w₂, v, heq, hw₁, hw₂⟩ := h
      rcases nl_align (hfree l (List.mem_cons_self _ _)) heq with
        ⟨rfl, hR⟩ | ⟨u2, rfl, hJ⟩
      · -- the first newline of the occurrence is the first separator
        cases M2 with
        | nil =>
          rw [joinNl_single] at hR
          have hmem : ('\n' : Char) ∈ m := by
            rw [← hR]
            exact List.mem_append_right _ (List.mem_cons_self _ _)
          exact absurd hmem (fun hmem => hfree m (by simp) '\n' hmem rfl)
        | cons m2 M3 =>
          rw [joinNl_cons (by simp)] at hR
          obtain ⟨hw1m, hR2⟩ := nlFree_prefix_eq
            (fun c hc => (hw₁ c hc).2) (hfree m (by simp)) hR
          cases M3 with
          | nil =>
            rw [joinNl_single] at hR2
            have hmem : ('\n' : Char) ∈ m2 := by
              rw [← hR2]
              exact List.mem_append_right _ (List.mem_cons_self _ _)
            exact absurd hmem (fun hmem => hfree m2 (by simp) '\n' hmem rfl)
          | cons m3 M4 =>
            rw [joinNl_cons (by simp)] at hR2
            obtain ⟨hw2m, -⟩ := nlFree_prefix_eq
              (fun c hc => (hw₂ c hc).2) (hfree m2 (by simp)) hR2
            refine ⟨[u], m, m2, m3 :: M4, by simp, by simp, by simp, ?_, ?_⟩
            · intro c hc
              rw [← hw1m] at hc
              exact (hw₁ c hc).1
            · intro c hc
              rw [← hw2m] at hc
              exact (hw₂ c hc).1
      · -- the occurrence lies beyond the first line
        have hbad2 : BadM (joinNl (m :: M2)) := ⟨u2, w₁, w₂, v, hJ, hw₁, hw₂⟩
        obtain ⟨A, x₁, x₂, B, hMeq, hA, hB, hx₁, hx₂⟩ :=
          ih (fun x hx => hfree x (List.mem_cons_of_mem _ hx)) hbad2
        refine ⟨l :: A, x₁, x₂, B, ?_, by simp, hB, hx₁, hx₂⟩
        rw [hMeq]
        rfl

theorem joinNl_append : ∀ {A B : List Str}, A ≠ [] → B ≠ [] →
    joinNl (A ++ B) = joinNl A ++ '\n' :: joinNl B := by
  intro A
  induction A with
  | nil => intro B h; exact absurd rfl h
  | cons a A' ih =>
    intro B _ hB
    cases A' with
    | nil =>
      rw [joinNl_single]
      simpa using joinNl_cons hB a
    | cons a2 A'' =>
      rw [List.cons_append, joinNl_cons (by simp), joinNl_cons (by simp),
        ih (by simp) hB]
      simp

/-- The central downward transfer: if the fully-normalized text contains the
three-newline shape, the original text already did. -/
theorem badM_down {t : Str}
    (h : BadM (pyStrip (joinNl ((splitNl t).map normLine)))) : BadM t := by
  set L := (splitNl t).map normLine with hL
  have hJ : BadM (joinNl L) := by
    obtain ⟨u, v, hdec, -, -⟩ := pyStrip_decomp (joinNl L)
    rw [hdec]
    exact badM_append h
  have hfreeL : ∀ l ∈ L, ∀ c ∈ l, c ≠ '\n' := by
    intro l hl c hc
    rw [hL] at hl
    obtain ⟨l₀, hl₀, rfl⟩ := List.mem_map.mp hl
    rcases normLine_chars hc with hc' | rfl
    · exact splitNl_nlFree t l₀ hl₀ c hc'
    · decide
  obtain ⟨A, w₁, w₂, B, hMeq, hA, hB, hw₁, hw₂⟩ := badM_joinNl hfreeL hJ
  rw [hL] at hMeq
  obtain ⟨A₀, rest₀, hsp, hmapA, hmaprest⟩ := List.map_eq_append_iff.mp hMeq
  obtain ⟨l₁, rest₁, rfl, hnl₁, hmaprest1⟩ := List.map_eq_cons_iff.mp hmaprest
  obtain ⟨l₂, B₀, rfl, hnl₂, hmapB⟩ := List.map_eq_cons_iff.mp hmaprest1
  have hA₀ : A₀ ≠ [] := by
    intro hnil
    rw [hnil] at hmapA
    exact hA hmapA.symm
  have hB₀ : B₀ ≠ [] := by
    intro hnil
    rw [hnil] at hmapB
    exact hB hmapB.symm
  have hl₁ws : ∀ c ∈ l₁, wsB c = true :=
    allWs_of_normLine_allWs (by rw [hnl₁]; exact hw₁)
  have hl₂ws : ∀ c ∈ l₂, wsB c = true :=
    allWs_of_normLine_allWs (by rw [hnl₂]; exact hw₂)
  have ht : t = joinNl A₀ ++ '\n' :: (l₁ ++ '\n' :: (l₂ ++ '\n' :: joinNl B₀)) := by
    conv_lhs => rw [← joinNl_splitNl t, hsp]
    rw [joinNl_append hA₀ (by simp), joinNl_cons (by simp),
      joinNl_cons hB₀]
  have hmem₁ : l₁ ∈ splitNl t := by
    rw [hsp]
    exact List.mem_append_right _ (List.mem_cons_self _ _)
  have hmem₂ : l₂ ∈ splitNl t := by
    rw [hsp]
    exact List.mem_append_right _ (List.mem_cons_of_mem _ (List.mem_cons_self _ _))
  refine ⟨joinNl A₀, l₁, l₂, joinNl B₀, ht, ?_, ?_⟩
  · intro c hc
    exact ⟨hl₁ws c hc, splitNl_nlFree t l₁ hmem₁ c hc⟩
  · intro c hc
    exact ⟨hl₂ws c hc, splitNl_nlFree t l₂ hmem₂ c hc⟩

/-! ### Space collapsing: structure of `plus`-class searches -/

theorem runSplit_cons_pos {p : Char → Bool} {a : Char} {t : Str}
    (h : p a = true) :
    runSplit p (a :: t) = (a :: (runSplit p t).1, (runSplit p t).2) := by
  rw [runSplit, if_pos h]

theorem runSplit_cons_neg {p : Char → Bool} {a : Char} {t : Str}
    (h : p a = false) : runSplit p (a :: t) = ([], a :: t) := by
  rw [runSplit, if_neg (by simp [h])]

theorem runSplit_snd_head {p : Char → Bool} :
    ∀ {l : Str} {c : Char}, (runSplit p l).2.head? = some c → p c = false := by
  intro l
  induction l with
  | nil => intro c h; simp [runSplit] at h
  | cons a t ih =>
    intro c h
    by_cases hpa : p a = true
    · rw [runSplit_cons_pos hpa] at h
      exact ih h
    · rw [runSplit_cons_neg (by simpa using hpa)] at h
      simp only [List.head?_cons, Option.some.injEq] at h
      subst h
      simpa using hpa

theorem starOuts_plus_head {p : Char → Bool} {rest : Str}
    (h : (runSplit p rest).1 ≠ []) :
    ∃ tl, starOuts p rest false true =
      ((runSplit p rest).1, (runSplit p rest).2, ([] : Caps)) :: tl := by
  rcases hrs : runSplit p rest with ⟨run, r2⟩
  rw [hrs] at h
  simp only [] at h
  rw [starOuts, hrs]
  simp only []
  cases hn : run.length with
  | zero =>
    rw [List.length_eq_zero] at hn
    exact absurd hn h
  | succ n =>
    rw [if_pos trivial, List.range_succ_eq_map]
    simp only [List.map_cons, Nat.sub_zero, Bool.false_eq_true, if_false,
      List.filter_cons, decide_eq_true_eq]
    rw [if_pos (Nat.succ_pos n)]
    simp only [List.map_cons]
    have ht : List.take (n + 1) run = run := by rw [← hn, List.take_length]
    have hd : List.drop (n + 1) run = [] := by rw [← hn, List.drop_length]
    simp only [ht, hd, List.nil_append]
    exact ⟨_, rfl⟩

theorem mtch_plus_nil_of_neg {p : Char → Bool} {prev : Option Char} {a : Char}
    {t : Str} (h : p a = false) : mtch (.plus p) prev (a :: t) = [] := by
  rw [mtch, starOuts, runSplit_cons_neg h]
  rfl

theorem mtch_plus_nil_nil {p : Char → Bool} {prev : Option Char} :
    mtch (.plus p) prev [] = [] := rfl

theorem searchFrom_plus_none {p : Char → Bool} :
    ∀ {prev : Option Char} {s : Str},
      searchFrom (.plus p) prev s = none → ∀ c ∈ s, p c = false := by
  intro prev s
  induction s generalizing prev with
  | nil => intro _ c hc; cases hc
  | cons a t ih =>
    intro h c hc
    by_cases hpa : p a = true
    · exfalso
      rw [searchFrom] at h
      obtain ⟨tl, hso⟩ := starOuts_plus_head
        (by rw [runSplit_cons_pos hpa]; simp : (runSplit p (a :: t)).1 ≠ [])
      have : mtch (.plus p) prev (a :: t) =
          ((runSplit p (a :: t)).1, (runSplit p (a :: t)).2, ([] : Caps)) :: tl := by
        rw [mtch]; exact hso
      rw [this] at h
      cases h
    · rcases List.mem_cons.mp hc with rfl | hc
      · simpa using hpa
      · rw [searchFrom, mtch_plus_nil_of_neg (by simpa using hpa)] at h
        simp only [Option.map_eq_none'] at h
        exact ih h c hc

theorem searchFrom_plus_some {p : Char → Bool} :
    ∀ {prev : Option Char} {s : Str} {res},
      searchFrom (.plus p) prev s = some res →
      (∀ c ∈ res.1, p c = false) ∧ res.2.1 ≠ [] ∧
        (∀ c ∈ res.2.1, p c = true) ∧
        (∀ c, res.2.2.1.head? = some c → p c = false) := by
  intro prev s
  induction s generalizing prev with
  | nil =>
    intro res h
    rw [searchFrom, mtch_plus_nil_nil] at h
    cases h
  | cons a t ih =>
    intro res h
    by_cases hpa : p a = true
    · obtain ⟨tl, hso⟩ := starOuts_plus_head
        (by rw [runSplit_cons_pos hpa]; simp : (runSplit p (a :: t)).1 ≠ [])
      rw [searchFrom] at h
      have hm : mtch (.plus p) prev (a :: t) =
          ((runSplit p (a :: t)).1, (runSplit p (a :: t)).2, ([] : Caps)) :: tl := by
        rw [mtch]; exact hso
      rw [hm] at h
      injection h with h'
      subst h'
      refine ⟨?_, ?_, ?_, ?_⟩
      · intro c hc; cases hc
      · rw [runSplit_cons_pos hpa]; simp
      · intro c hc
        exact runSplit_fst_all p (a :: t) c hc
      · intro c hc
        exact runSplit_snd_head hc
    · rw [searchFrom, mtch_plus_nil_of_neg (by simpa using hpa)] at h
      simp only [Option.map_eq_some'] at h
      obtain ⟨o, ho, heq⟩ := h
      subst heq
      obtain ⟨hpre, hne, hcons, hrest⟩ := ih ho
      refine ⟨?_, hne, hcons, hrest⟩
      intro c hc
      rcases List.mem_cons.mp hc with rfl | hc
      · simpa using hpa
      · exact hpre c hc

/-- The shape of collapsed text: no tabs, and no two adjacent space/tab
characters. -/
def goodSp (s : Str) : Prop :=
  (∀ c ∈ s, c ≠ '\t') ∧
    s.Chain' (fun a b => ¬(spTabB a = true ∧ spTabB b = true))

theorem goodSp_mono {s s' : Str} (h : goodSp s') (hi : s <:+: s') :
    goodSp s := by
  refine ⟨fun c hc => h.1 c (hi.sublist.subset hc), ?_⟩
  obtain ⟨u, v, huv⟩ := hi
  have h2 := h.2
  rw [← huv, List.append_assoc] at h2
  exact (List.chain'_append.mp (List.chain'_append.mp h2).2.1).1

theorem chain'_of_forall {R : Char → Char → Prop} {Q : Char → Bool} {l : Str}
    (hl : ∀ x ∈ l, Q x = false) (hR : ∀ x y, Q x = false → R x y) :
    l.Chain' R := by
  induction l with
  | nil => exact List.chain'_nil
  | cons a t ih =>
    cases t with
    | nil => exact List.chain'_singleton a
    | cons b t' =>
      rw [List.chain'_cons]
      exact ⟨hR a b (hl a (List.mem_cons_self _ _)),
        ih (fun x hx => hl x (List.mem_cons_of_mem _ hx))⟩

theorem spTab_ne_tab {c : Char} (h : spTabB c = false) : c ≠ '\t' := by
  intro hc
  rw [hc] at h
  exact absurd h (by decide)

/-- Head preservation: collapsing does not change a non-matching head. -/
theorem subAllF_plus_head {p : Char → Bool} (repl : Str) :
    ∀ (fuel : Nat) (prev : Option Char) (rest : Str),
      (∀ c, rest.head? = some c → p c = false) →
      (subAllF fuel (.plus p) repl prev rest).head? = rest.head? := by
  intro fuel
  cases fuel with
  | zero => intro prev rest _; rfl
  | succ n =>
    intro prev rest h
    rw [subAllF]
    split
    · rfl
    · rename_i pre cns rest' k hsf
      obtain ⟨hpre, hne, hcons, -⟩ := searchFrom_plus_some hsf
      have hdec := searchFrom_decomp hsf
      cases hp : pre with
      | nil =>
        exfalso
        rw [hp] at hdec
        cases hc : cns with
        | nil => exact hne hc
        | cons c0 ct =>
          have : rest.head? = some c0 := by
            rw [hdec, hc]
            rfl
          have h1 := h c0 this
          have h2 := hcons c0 (by rw [hc]; exact List.mem_cons_self _ _)
          rw [h1] at h2
          cases h2
      | cons p0 pt =>
        rw [hdec, hp]
        rfl

/-- Collapsed text is `goodSp`. -/
theorem goodSp_collapse :
    ∀ (fuel : Nat) (prev : Option Char) (s : Str), s.length < fuel →
      goodSp (subAllF fuel rxSpaceTab [' '] prev s) := by
  intro fuel
  induction fuel with
  | zero => intro prev s h; omega
  | succ n ih =>
    intro prev s hlen
    rw [subAllF]
    split
    · rename_i hsf
      rw [rxSpaceTab] at hsf
      have hall := searchFrom_plus_none hsf
      refine ⟨fun c hc => spTab_ne_tab (hall c hc), ?_⟩
      exact chain'_of_forall hall (fun x y hx => by simp [hx])
    · rename_i pre cns rest k hsf
      rw [rxSpaceTab] at hsf
      obtain ⟨hpre, hne, hcons, hrest⟩ := searchFrom_plus_some hsf
      have hdec := searchFrom_decomp hsf
      have hlrest : rest.length < n := by
        have := congrArg List.length hdec
        simp only [List.length_append] at this
        cases hc : cns with
        | nil => exact absurd hc hne
        | cons c0 ct =>
          rw [hc] at this
          simp only [List.length_cons] at this
          omega
      have hgood := ih (newPrev (newPrev prev pre) cns) rest hlrest
      have hhead := subAllF_plus_head [' '] n
        (newPrev (newPrev prev pre) cns) rest hrest
      constructor
      · intro c hc
        rcases List.mem_append.mp hc with hc | hc
        · rcases List.mem_append.mp hc with hc | hc
          · exact spTab_ne_tab (hpre c hc)
          · simp only [List.mem_singleton] at hc
            subst hc
            decide
        · exact hgood.1 c hc
      · rw [List.append_assoc]
        rw [List.chain'_append]
        refine ⟨chain'_of_forall hpre (fun x y hx => by simp [hx]), ?_, ?_⟩
        · rw [List.singleton_append, List.chain'_cons']
          refine ⟨?_, hgood.2⟩
          intro y hy
          rw [Option.mem_def, rxSpaceTab, hhead] at hy
          have := hrest y hy
          simp [this]
        · intro x hx y hy
          have hxp := hpre x (List.mem_of_mem_getLast? hx)
          simp [hxp]

theorem spTab_cases {c : Char} (h : spTabB c = true) : c = ' ' ∨ c = '\t' := by
  rw [spTabB, Bool.or_eq_true, decide_eq_true_eq, decide_eq_true_eq] at h
  exact h

/-- On already-collapsed text the collapse pass is the identity. -/
theorem goodSp_collapse_id :
    ∀ (fuel : Nat) (prev : Option Char) (s : Str), goodSp s →
      subAllF fuel rxSpaceTab [' '] prev s = s := by
  intro fuel
  induction fuel with
  | zero => intro prev s _; rfl
  | succ n ih =>
    intro prev s hg
    rw [subAllF]
    split
    · rfl
    · rename_i pre cns rest k hsf
      rw [rxSpaceTab] at hsf
      obtain ⟨hpre, hne, hcons, hrest⟩ := searchFrom_plus_some hsf
      have hdec := searchFrom_decomp hsf
      have hinf : cns <:+: s := ⟨pre, rest, by rw [hdec]⟩
      have hrinf : rest <:+: s := ⟨pre ++ cns, [], by rw [hdec]; simp [List.append_assoc]⟩
      have hc1 : cns = [' '] := by
        cases hc : cns with
        | nil => exact absurd hc hne
        | cons c0 ct =>
          cases ht : ct with
          | cons c1 ct' =>
            exfalso
            have hgcns := goodSp_mono hg hinf
            rw [hc, ht] at hgcns
            have := (List.chain'_cons.mp hgcns.2).1
            refine this ⟨?_, ?_⟩
            · exact hcons c0 (by rw [hc]; exact List.mem_cons_self _ _)
            · exact hcons c1 (by rw [hc, ht]; simp)
          | nil =>
            have hsp := hcons c0 (by rw [hc]; exact List.mem_cons_self _ _)
            rcases spTab_cases hsp with h' | h'
            · rw [h']
            · exfalso
              have hmem : c0 ∈ s := by
                apply hinf.sublist.subset
                rw [hc]
                exact List.mem_cons_self _ _
              exact hg.1 c0 hmem h'
      have := ih (newPrev (newPrev prev pre) cns) rest (goodSp_mono hg hrinf)
      rw [this, hdec, hc1]

theorem pyStrip_mid (x : Str) : pyStrip x <:+: x := by
  obtain ⟨u, v, he, -, -⟩ := pyStrip_decomp x
  exact ⟨u, v, he.symm⟩

theorem isTableLine_subset {l m : Str} (hl : isTableLine l = false)
    (hs : ∀ c ∈ m, c ∈ l ∨ c = ' ') : isTableLine m = false := by
  rw [isTableLine] at hl ⊢
  simp only [Bool.or_eq_false_iff] at hl ⊢
  obtain ⟨⟨⟨⟨⟨⟨h1, h2⟩, h3⟩, h4⟩, h5⟩, h6⟩, h7⟩ := hl
  have key : ∀ (c : Char), c ≠ ' ' → l.contains c = false → m.contains c = false := by
    intro c hcsp hcl
    rw [Bool.eq_false_iff]
    intro hcm
    rcases hs c (List.elem_iff.mp hcm) with hc | hc
    · rw [Bool.eq_false_iff] at hcl
      exact hcl (List.elem_iff.mpr hc)
    · exact hcsp hc
  exact ⟨⟨⟨⟨⟨⟨key '|' (by decide) h1, key '─' (by decide) h2⟩,
    key '│' (by decide) h3⟩, key '┌' (by decide) h4⟩,
    key '┐' (by decide) h5⟩, key '└' (by decide) h6⟩,
    key '┘' (by decide) h7⟩

/-- Per-line normalization is idempotent. -/
theorem normLine_idem (l : Str) : normLine (normLine l) = normLine l := by
  by_cases ht : isTableLine l = true
  · have h1 : normLine l = l := by rw [normLine, if_pos ht]
    rw [h1]
    exact h1
  · rw [Bool.not_eq_true] at ht
    have hnl : normLine l = pyStrip (subAllT rxSpaceTab [' '] l) := by
      rw [normLine, if_neg (by rw [ht]; exact Bool.false_ne_true)]
    have hgood : goodSp (normLine l) := by
      rw [hnl]
      exact goodSp_mono
        (goodSp_collapse (l.length + 1) none l (Nat.lt_succ_self _))
        (pyStrip_mid _)
    have htm : isTableLine (normLine l) = false :=
      isTableLine_subset ht (fun c hc => normLine_chars hc)
    rw [normLine, if_neg (by rw [htm]; exact Bool.false_ne_true), subAllT,
      goodSp_collapse_id _ _ _ hgood, hnl, pyStrip_idem]

/-! ### The blank-line pass leaves nothing for a second pass

The remaining lemmas show that after `re.sub(r'\n\s*\n\s*\n+', '\n\n', t)` the
result contains no further occurrence of the pattern, which is the greedy
maximality of the engine's chosen matches. -/

/-- The string begins with newline-free whitespace followed by a newline —
the shape that would let a later blank-line match bleed across a boundary. -/
def WsNlHead (s : Str) : Prop := ∃ w v, s = w ++ '\n' :: v ∧ allWsNN w

theorem flatMap_map_eq {α β γ : Type} (l : List α) (f : α → β) (g : β → List γ) :
    (l.map f).flatMap g = l.flatMap (fun x => g (f x)) := by
  induction l with
  | nil => rfl
  | cons a t ih => simp [List.flatMap_cons, ih]

/-- The head of a `flatMap` is the head of some member's image. -/
theorem headFlat {α β : Type} :
    ∀ (l : List α) (f : α → List β) (o : β) (tl : List β),
      l.flatMap f = o :: tl → ∃ a ∈ l, ∃ tl2, f a = o :: tl2 := by
  intro l
  induction l with
  | nil => intro f o tl h; cases h
  | cons a t ih =>
    intro f o tl h
    rw [List.flatMap_cons] at h
    cases hfa : f a with
    | nil =>
      rw [hfa, List.nil_append] at h
      obtain ⟨a', ha', tl2, h2⟩ := ih f o tl h
      exact ⟨a', List.mem_cons_of_mem _ ha', tl2, h2⟩
    | cons b bt =>
      rw [hfa, List.cons_append] at h
      injection h with h1 h2
      subst h1
      exact ⟨a, List.mem_cons_self _ _, bt, hfa⟩

/-- The head of a `flatMap` over the descending list `[n, n-1, …, 0]` comes
from the largest index with a nonempty image. -/
theorem descHead {β : Type} :
    ∀ (n : Nat) (F : Nat → List β) (o : β) (tl : List β),
      ((List.range (n + 1)).map (fun d => n - d)).flatMap F = o :: tl →
      ∃ k, k ≤ n ∧ (∃ tl2, F k = o :: tl2) ∧
        ∀ k', k < k' → k' ≤ n → F k' = [] := by
  intro n
  induction n with
  | zero =>
    intro F o tl h
    have h0 : (List.range 1).map (fun d => 0 - d) = [0] := rfl
    rw [h0, List.flatMap_cons, List.flatMap_nil, List.append_nil] at h
    exact ⟨0, le_refl 0, ⟨tl, h⟩, fun k' h1 h2 => absurd (lt_of_lt_of_le h1 h2) (lt_irrefl 0)⟩
  | succ n ih =>
    intro F o tl h
    have hlist : (List.range (n + 2)).map (fun d => n + 1 - d) =
        (n + 1) :: (List.range (n + 1)).map (fun d => n - d) := by
      rw [List.range_succ_eq_map, List.map_cons, List.map_map]
      congr 1
      apply List.map_congr_left
      intro d _
      simp [Nat.succ_sub_succ]
    rw [hlist, List.flatMap_cons] at h
    cases hfa : F (n + 1) with
    | cons b bt =>
      rw [hfa, List.cons_append] at h
      injection h with h1 h2
      subst h1
      refine ⟨n + 1, le_refl _, ⟨bt, hfa⟩, fun k' h1 h2 => absurd (lt_of_lt_of_le h1 h2) (lt_irrefl _)⟩
    | nil =>
      rw [hfa, List.nil_append] at h
      obtain ⟨k, hk, hko, hkall⟩ := ih F o tl h
      refine ⟨k, Nat.le_succ_of_le hk, hko, fun k' h1 h2 => ?_⟩
      rcases Nat.lt_or_ge k' (n + 1) with h3 | h3
      · exact hkall k' h1 (Nat.lt_succ_iff.mp h3)
      · have : k' = n + 1 := le_antisymm h2 h3
        rw [this]
        exact hfa

/-- `searchFrom` returns the head of the match list at the found position. -/
theorem searchFrom_head {r : Rx} :
    ∀ {prev s res}, searchFrom r prev s = some res →
      ∃ pv s' tl, mtch r pv s' = res.2 :: tl := by
  intro prev s
  induction s generalizing prev with
  | nil =>
    intro res h
    rw [searchFrom] at h
    split at h
    · rename_i o tl ho
      injection h with h'
      subst h'
      exact ⟨prev, [], tl, ho⟩
    · simp at h
  | cons a t ih =>
    intro res h
    rw [searchFrom] at h
    split at h
    · rename_i o tl ho
      injection h with h'
      subst h'
      exact ⟨prev, a :: t, tl, ho⟩
    · simp only [Option.map_eq_some'] at h
      obtain ⟨o, ho, heq⟩ := h
      subst heq
      obtain ⟨pv, s', tl, hm⟩ := ih ho
      exact ⟨pv, s', tl, hm⟩


theorem runSplit_all_append (p : Char → Bool) :
    ∀ (w rest : Str), (∀ c ∈ w, p c = true) →
      runSplit p (w ++ rest) =
        (w ++ (runSplit p rest).1, (runSplit p rest).2) := by
  intro w
  induction w with
  | nil => intro rest _; simp
  | cons a w' ih =>
    intro rest h
    rw [List.cons_append, runSplit_cons_pos (h a (List.mem_cons_self _ _)),
      ih rest (fun c hc => h c (List.mem_cons_of_mem _ hc))]
    rfl

/-- The head of a nonempty one-or-more quantifier match is the greedy one:
it consumes the whole run. -/
theorem mtch_plus_head {p : Char → Bool} {prev : Option Char} {v : Str}
    {o : Str × Str × Caps} {tl : List (Str × Str × Caps)}
    (h : mtch (.plus p) prev v = o :: tl) :
    o = ((runSplit p v).1, (runSplit p v).2, []) ∧ (runSplit p v).1 ≠ [] := by
  have hrun : (runSplit p v).1 ≠ [] := by
    intro hemp
    cases v with
    | nil => rw [mtch_plus_nil_nil] at h; cases h
    | cons a t =>
      have hpa : p a = false := by
        cases hpa : p a with
        | false => rfl
        | true => rw [runSplit_cons_pos hpa] at hemp; cases hemp
      rw [mtch_plus_nil_of_neg hpa] at h
      cases h
  obtain ⟨tl2, hst⟩ := starOuts_plus_head hrun
  rw [mtch, hst] at h
  injection h with h1 h2
  exact ⟨h1.symm, hrun⟩

theorem mtch_plus_ne_nil {p : Char → Bool} {prev : Option Char} {a : Char}
    {t : Str} (h : p a = true) : mtch (.plus p) prev (a :: t) ≠ [] := by
  have hrun : (runSplit p (a :: t)).1 ≠ [] := by
    rw [runSplit_cons_pos h]
    exact List.cons_ne_nil _ _
  obtain ⟨tl2, hst⟩ := starOuts_plus_head hrun
  rw [mtch, hst]
  exact List.cons_ne_nil _ _

/-- A whitespace-headed occurrence inside `RD ++ rem` falls inside `RD` when
`rem` starts with a non-whitespace character. -/
theorem ws_prefix_split :
    ∀ (q RD rem v' : Str) (d : Char),
      (∀ c, rem.head? = some c → wsB c = false) →
      RD ++ rem = q ++ d :: v' → (∀ c ∈ q, wsB c = true) → wsB d = true →
      ∃ X, RD = q ++ d :: X ∧ v' = X ++ rem := by
  intro q
  induction q with
  | nil =>
    intro RD rem v' d hrem heq hq hd
    simp only [List.nil_append] at heq ⊢
    cases RD with
    | nil =>
      exfalso
      rw [List.nil_append] at heq
      have := hrem d (by rw [heq]; rfl)
      rw [hd] at this
      cases this
    | cons r RD' =>
      rw [List.cons_append] at heq
      injection heq with h1 h2
      subst h1
      exact ⟨RD', rfl, h2.symm⟩
  | cons a q' ih =>
    intro RD rem v' d hrem heq hq hd
    cases RD with
    | nil =>
      exfalso
      rw [List.nil_append, List.cons_append] at heq
      have := hrem a (by rw [heq]; rfl)
      rw [hq a (List.mem_cons_self _ _)] at this
      cases this
    | cons r RD' =>
      rw [List.cons_append, List.cons_append] at heq
      injection heq with h1 h2
      subst h1
      obtain ⟨X, hX1, hX2⟩ := ih RD' rem v' d hrem h2
        (fun c hc => hq c (List.mem_cons_of_mem _ hc)) hd
      exact ⟨X, by rw [hX1, List.cons_append], hX2⟩

theorem map_head_peel {α β : Type} {L : List α} {f : α → β} {o : β} {tl : List β}
    (h : L.map f = o :: tl) : ∃ o2 t2, L = o2 :: t2 ∧ o = f o2 := by
  cases L with
  | nil => cases h
  | cons a t =>
    injection h with h1 h2
    exact ⟨a, t, rfl, h1.symm⟩

theorem flatMap_singleton_eq_map {α β : Type} (l : List α) (f : α → β) :
    l.flatMap (fun x => [f x]) = l.map f := by
  induction l with
  | nil => rfl
  | cons a t ih =>
    rw [List.flatMap_cons, List.map_cons, ih]
    rfl

/-- The head outcome of `a · b` combines a member of `a`'s outcomes with the
head of the corresponding continuation. -/
theorem seq_head_peel {a b : Rx} {pv : Option Char} {v : Str}
    {o : Str × Str × Caps} {tl : List (Str × Str × Caps)}
    (h : mtch (.seq a b) pv v = o :: tl) :
    ∃ o1, o1 ∈ mtch a pv v ∧ ∃ o2 t2,
      mtch b (newPrev pv o1.1) o1.2.1 = o2 :: t2 ∧ o.2.1 = o2.2.1 := by
  rw [mtch] at h
  obtain ⟨o1, ho1, tl2, hf⟩ := headFlat _ _ _ _ h
  obtain ⟨o2, t2, hL, ho⟩ := map_head_peel hf
  exact ⟨o1, ho1, o2, t2, hL, by rw [ho]⟩

theorem mtch_seq_eps_head {a : Rx} {pv : Option Char} {v : Str}
    {o : Str × Str × Caps} {tl : List (Str × Str × Caps)}
    (h : mtch (.seq a .eps) pv v = o :: tl) :
    ∃ o1 t1, mtch a pv v = o1 :: t1 ∧ o.2.1 = o1.2.1 := by
  rw [mtch] at h
  cases hma : mtch a pv v with
  | nil =>
    rw [hma, List.flatMap_nil] at h
    cases h
  | cons o1 t1 =>
    rw [hma, List.flatMap_cons] at h
    simp only [mtch, List.map_cons, List.map_nil, List.cons_append] at h
    injection h with h1 h2
    refine ⟨o1, t1, rfl, ?_⟩
    rw [← h1]

theorem mtch_plus_eps_head {p : Char → Bool} {pv : Option Char} {v : Str}
    {o : Str × Str × Caps} {tl : List (Str × Str × Caps)}
    (h : mtch (.seq (.plus p) .eps) pv v = o :: tl) :
    o.2.1 = (runSplit p v).2 ∧ (runSplit p v).1 ≠ [] := by
  obtain ⟨o1, t1, hm, hrest⟩ := mtch_seq_eps_head h
  obtain ⟨ho1, hrun⟩ := mtch_plus_head hm
  refine ⟨?_, hrun⟩
  rw [hrest, ho1]

theorem mtch_plus_eps_ne_nil {p : Char → Bool} {pv : Option Char} {a : Char}
    {t : Str} (h : p a = true) :
    mtch (.seq (.plus p) .eps) pv (a :: t) ≠ [] := by
  rw [mtch]
  cases hma : mtch (.plus p) pv (a :: t) with
  | nil => exact absurd hma (mtch_plus_ne_nil h)
  | cons o1 t1 =>
    rw [List.flatMap_cons]
    simp only [mtch, List.map_cons, List.map_nil, List.cons_append]
    exact List.cons_ne_nil _ _

theorem starOuts_star_eq {p : Char → Bool} {rest run r2 : Str}
    (hrs : runSplit p rest = (run, r2)) :
    starOuts p rest false false =
      ((List.range (run.length + 1)).map (fun d => run.length - d)).map
        (fun k => (run.take k, run.drop k ++ r2, ([] : Caps))) := by
  rw [starOuts, hrs]
  simp only [Bool.false_eq_true, if_false]

/-- Greedy maximality of the blank-line tail: after the chosen match of
`\s*\n+` (inside the blank-line pattern), the remaining input cannot start
with newline-free whitespace followed by a newline — the backtracking order
would have preferred the longer match. -/
theorem mtch_starws_head {pv : Option Char} {u : Str} {o : Str × Str × Caps}
    {tl : List (Str × Str × Caps)}
    (h : mtch (.seq (.star wsB) (.seq (.plus nlB) .eps)) pv u = o :: tl) :
    ¬ WsNlHead o.2.1 := by
  rcases hrs : runSplit wsB u with ⟨run, rem⟩
  have hrem : ∀ c, rem.head? = some c → wsB c = false := by
    intro c hc
    exact runSplit_snd_head (by rw [hrs]; exact hc)
  rw [mtch] at h
  rw [show mtch (.star wsB) pv u = starOuts wsB u false false from rfl] at h
  rw [starOuts_star_eq hrs, flatMap_map_eq] at h
  obtain ⟨k, hk, ⟨tl2, hfk⟩, hall⟩ := descHead run.length _ o tl h
  simp only [] at hfk
  obtain ⟨oP, tP, hPL, hoP⟩ := map_head_peel hfk
  obtain ⟨hPrest, hPrun⟩ := mtch_plus_eps_head hPL
  intro hWs
  obtain ⟨q, v, hqv, hq⟩ := hWs
  have horest : o.2.1 = (runSplit nlB (run.drop k ++ rem)).2 := by
    rw [hoP]
    exact hPrest
  set nr := (runSplit nlB (run.drop k ++ rem)).1 with hnr
  have hw : nr ++ (runSplit nlB (run.drop k ++ rem)).2 = run.drop k ++ rem :=
    runSplit_append nlB _
  have heq : run.drop k ++ rem = (nr ++ q) ++ '\n' :: v := by
    rw [← hw, ← horest, hqv, List.append_assoc]
  have hqws : ∀ c ∈ nr ++ q, wsB c = true := by
    intro c hc
    rcases List.mem_append.mp hc with hc | hc
    · have := runSplit_fst_all nlB (run.drop k ++ rem) c hc
      rw [nlB, decide_eq_true_eq] at this
      subst this
      decide
    · exact (hq c hc).1
  obtain ⟨X, hX1, hX2⟩ := ws_prefix_split (nr ++ q) (run.drop k) rem v '\n'
    hrem heq hqws (by decide)
  have hdk' : run.drop (k + (nr ++ q).length) = '\n' :: X := by
    rw [← List.drop_drop, hX1, List.drop_left]
  have hlen : (run.drop (k + (nr ++ q).length)).length = X.length + 1 := by
    rw [hdk']
    rfl
  rw [List.length_drop] at hlen
  have hnrpos : 0 < nr.length := List.length_pos.mpr hPrun
  have hkk' : k < k + (nr ++ q).length := by
    rw [List.length_append]
    omega
  have hk'le : k + (nr ++ q).length ≤ run.length := by omega
  have hfail := hall (k + (nr ++ q).length) hkk' hk'le
  simp only [] at hfail
  rw [show run.drop (k + (nr ++ q).length) ++ rem = '\n' :: (X ++ rem) by
    rw [hdk']; rfl] at hfail
  cases hmm : mtch (.seq (.plus nlB) .eps)
      (newPrev pv (run.take (k + (nr ++ q).length))) ('\n' :: (X ++ rem)) with
  | nil => exact mtch_plus_eps_ne_nil (by decide) hmm
  | cons z zt =>
    rw [hmm] at hfail
    cases hfail

theorem mtch_rxBlank3_head {pv : Option Char} {s : Str} {o : Str × Str × Caps}
    {tl : List (Str × Str × Caps)} (h : mtch rxBlank3 pv s = o :: tl) :
    ¬ WsNlHead o.2.1 := by
  simp only [rxBlank3, seqs, List.foldr_cons, List.foldr_nil] at h
  obtain ⟨o1, -, o2, t2, h2, ho⟩ := seq_head_peel h
  obtain ⟨o3, -, o4, t4, h4, ho2⟩ := seq_head_peel h2
  obtain ⟨o5, -, o6, t6, h6, ho4⟩ := seq_head_peel h4
  rw [ho, ho2, ho4]
  exact mtch_starws_head h6

/-- After a blank-line match is replaced, the remaining input cannot supply
the tail of another blank-line group. -/
theorem searchFrom_rxBlank3_rest {prev : Option Char} {s : Str}
    {res : Str × Str × Str × Caps}
    (h : searchFrom rxBlank3 prev s = some res) : ¬ WsNlHead res.2.2.1 := by
  obtain ⟨pv, s', tl, hm⟩ := searchFrom_head h
  exact mtch_rxBlank3_head hm

theorem newPrev_cons (prev : Option Char) (x : Char) (xs : Str) :
    newPrev prev (x :: xs) = newPrev (some x) xs := by
  cases xs with
  | nil => rfl
  | cons y ys =>
    rw [newPrev, newPrev,
      show (x :: y :: ys).getLast? = (y :: ys).getLast? from rfl]
    cases h : (y :: ys).getLast? with
    | some c => rfl
    | none =>
      rw [List.getLast?_eq_none_iff] at h
      cases h

/-- `searchFrom` finds the leftmost match: every strictly earlier position
admits no match at all. -/
theorem searchFrom_leftmost {r : Rx} :
    ∀ {prev s res}, searchFrom r prev s = some res →
      ∀ a b, s = a ++ b → a.length < res.1.length →
        mtch r (newPrev prev a) b = [] := by
  intro prev s
  induction s generalizing prev with
  | nil =>
    intro res h a b hab hlen
    rw [searchFrom] at h
    split at h
    · rename_i o tl ho
      injection h with h'
      subst h'
      simp at hlen
    · simp at h
  | cons c t ih =>
    intro res h a b hab hlen
    rw [searchFrom] at h
    split at h
    · rename_i o tl ho
      injection h with h'
      subst h'
      simp at hlen
    · rename_i hnil
      simp only [Option.map_eq_some'] at h
      obtain ⟨o, ho, heq⟩ := h
      subst heq
      cases a with
      | nil =>
        rw [List.nil_append] at hab
        subst hab
        exact hnil
      | cons a0 a' =>
        rw [List.cons_append] at hab
        injection hab with hab1 hab2
        subst hab1
        rw [newPrev_cons]
        exact ih ho a' b hab2 (by simpa using hlen)

/-- If `searchFrom` finds nothing, no position admits a match. -/
theorem searchFrom_none_all {r : Rx} :
    ∀ {prev s}, searchFrom r prev s = none →
      ∀ a b, s = a ++ b → mtch r (newPrev prev a) b = [] := by
  intro prev s
  induction s generalizing prev with
  | nil =>
    intro h a b hab
    have ha : a = [] := by
      cases a with
      | nil => rfl
      | cons x xs => cases hab
    subst ha
    rw [List.nil_append] at hab
    subst hab
    rw [searchFrom] at h
    split at h
    · cases h
    · rename_i hnil
      exact hnil
  | cons c t ih =>
    intro h a b hab
    rw [searchFrom] at h
    split at h
    · cases h
    · rename_i hnil
      cases a with
      | nil =>
        rw [List.nil_append] at hab
        subst hab
        exact hnil
      | cons a0 a' =>
        rw [List.cons_append] at hab
        injection hab with hab1 hab2
        subst hab1
        rw [newPrev_cons]
        have hmap : searchFrom r (some c) t = none := by
          cases hsf : searchFrom r (some c) t with
          | none => rfl
          | some o => rw [hsf] at h; cases h
        exact ih hmap a' b hab2

theorem mtch_seq_ne_nil {a b : Rx} {pv : Option Char} {v : Str}
    {o1 : Str × Str × Caps} (h1 : o1 ∈ mtch a pv v)
    (h2 : mtch b (newPrev pv o1.1) o1.2.1 ≠ []) :
    mtch (.seq a b) pv v ≠ [] := by
  rw [mtch]
  intro hh
  rw [List.flatMap_eq_nil_iff] at hh
  have := hh o1 h1
  rw [List.map_eq_nil_iff] at this
  exact h2 this

theorem mtch_cls_mem {p : Char → Bool} {pv : Option Char} {c : Char} (t : Str)
    (h : p c = true) : ([c], t, ([] : Caps)) ∈ mtch (.cls p) pv (c :: t) := by
  rw [mtch, if_pos h]
  exact List.mem_singleton.mpr rfl

theorem mtch_star_mem {p : Char → Bool} {pv : Option Char} (w rest2 : Str)
    (hw : ∀ c ∈ w, p c = true) :
    (w, rest2, ([] : Caps)) ∈ mtch (.star p) pv (w ++ rest2) := by
  rcases hrs : runSplit p rest2 with ⟨run2, r2⟩
  have hrs2 : runSplit p (w ++ rest2) = (w ++ run2, r2) := by
    rw [runSplit_all_append p w rest2 hw, hrs]
  have hcat : run2 ++ r2 = rest2 := by
    have := runSplit_append p rest2
    rw [hrs] at this
    exact this
  rw [show mtch (.star p) pv (w ++ rest2) = starOuts p (w ++ rest2) false false
      from rfl, starOuts_star_eq hrs2]
  rw [List.mem_map]
  refine ⟨w.length, ?_, ?_⟩
  · rw [List.mem_map]
    refine ⟨(w ++ run2).length - w.length, ?_, ?_⟩
    · rw [List.mem_range]
      omega
    · rw [Nat.sub_sub_self]
      rw [List.length_append]
      omega
  · rw [List.take_left, List.drop_left, hcat]

/-- At a position shaped `\n ws* \n ws* \n …` the blank-line pattern matches. -/
theorem mtch_rxBlank3_hit {pv : Option Char} {w1 w2 v : Str}
    (h1 : ∀ c ∈ w1, wsB c = true) (h2 : ∀ c ∈ w2, wsB c = true) :
    mtch rxBlank3 pv ('\n' :: (w1 ++ '\n' :: (w2 ++ '\n' :: v))) ≠ [] := by
  simp only [rxBlank3, seqs, List.foldr_cons, List.foldr_nil]
  apply mtch_seq_ne_nil (mtch_cls_mem (w1 ++ '\n' :: (w2 ++ '\n' :: v)) (by decide))
  apply mtch_seq_ne_nil (mtch_star_mem w1 ('\n' :: (w2 ++ '\n' :: v)) h1)
  apply mtch_seq_ne_nil (mtch_cls_mem (w2 ++ '\n' :: v) (by decide))
  apply mtch_seq_ne_nil (mtch_star_mem w2 ('\n' :: v) h2)
  exact mtch_plus_eps_ne_nil (by decide)

theorem searchFrom_rxBlank3_cns {prev : Option Char} {s : Str}
    {res : Str × Str × Str × Caps} (h : searchFrom rxBlank3 prev s = some res) :
    ∃ a b n2, res.2.1 = '\n' :: (a ++ '\n' :: (b ++ '\n' :: n2)) ∧
      (∀ c ∈ a, wsB c = true) ∧ (∀ c ∈ b, wsB c = true) := by
  obtain ⟨pv, s', hm⟩ := searchFrom_mem h
  exact rxBlank3_consumed hm

/-- The blank-line pass preserves the absence of a whitespace-then-newline
head. -/
theorem wsNlHead_subAllF :
    ∀ (fuel : Nat) (prev : Option Char) (s : Str), ¬ WsNlHead s →
      ¬ WsNlHead (subAllF fuel rxBlank3 ['\n', '\n'] prev s) := by
  intro fuel prev s hs
  cases fuel with
  | zero => exact hs
  | succ n =>
    rw [subAllF]
    split
    · exact hs
    · rename_i pre cns rest k hsf
      intro hW
      apply hs
      obtain ⟨w, v, hwv, hwall⟩ := hW
      have hdec := searchFrom_decomp hsf
      obtain ⟨a2, b2, n2, hcns, -, -⟩ := searchFrom_rxBlank3_cns hsf
      simp only [List.append_assoc, List.cons_append, List.nil_append] at hwv
      have hpre_case : allWsNN pre → WsNlHead s := by
        intro hp
        refine ⟨pre, (a2 ++ '\n' :: (b2 ++ '\n' :: n2)) ++ rest, ?_, hp⟩
        rw [hdec, hcns]
        simp [List.append_assoc]
      rcases List.append_eq_append_iff.mp hwv with ⟨m, hw1, hX⟩ | ⟨m, hpre, hv⟩
      · cases m with
        | nil =>
          rw [List.append_nil] at hw1
          subst hw1
          exact hpre_case hwall
        | cons c m' =>
          exfalso
          rw [List.cons_append] at hX
          injection hX with hc hrest2
          have hmem : c ∈ w := by
            rw [hw1]
            exact List.mem_append.mpr (Or.inr (List.mem_cons_self _ _))
          exact (hwall c hmem).2 hc.symm
      · cases m with
        | nil =>
          rw [List.append_nil] at hpre
          subst hpre
          exact hpre_case hwall
        | cons c m' =>
          rw [List.cons_append] at hv
          injection hv with hc hrest2
          subst hc
          refine ⟨w, m' ++ (cns ++ rest), ?_, hwall⟩
          rw [hdec, hpre]
          simp [List.append_assoc]

/-- After the blank-line collapsing pass, no blank-line group remains. -/
theorem subAllF_rxBlank3_noBad :
    ∀ (fuel : Nat) (prev : Option Char) (s : Str), s.length < fuel →
      ¬ BadM (subAllF fuel rxBlank3 ['\n', '\n'] prev s) := by
  intro fuel
  induction fuel with
  | zero => intro prev s h; omega
  | succ n ih =>
    intro prev s hlen
    rw [subAllF]
    split
    · rename_i hsf
      intro hB
      obtain ⟨u, w1, w2, v, hs, h1, h2⟩ := hB
      exact mtch_rxBlank3_hit (fun c hc => (h1 c hc).1) (fun c hc => (h2 c hc).1)
        (searchFrom_none_all hsf u ('\n' :: (w1 ++ '\n' :: (w2 ++ '\n' :: v))) hs)
    · rename_i pre cns rest k hsf
      intro hB
      obtain ⟨u, w1, w2, v, hO, h1, h2⟩ := hB
      have hdec := searchFrom_decomp hsf
      obtain ⟨a2, b2, n2, hcns, ha2, hb2⟩ := searchFrom_rxBlank3_cns hsf
      simp only [] at hdec hcns
      have hlrest : rest.length < n := by
        have hl := congrArg List.length hdec
        simp only [hcns, List.length_append, List.length_cons] at hl
        omega
      set REC := subAllF n rxBlank3 ['\n', '\n']
        (newPrev (newPrev prev pre) cns) rest with hRECdef
      have hnoBad : ¬ BadM REC := ih (newPrev (newPrev prev pre) cns) rest hlrest
      have hnoWs : ¬ WsNlHead REC :=
        wsNlHead_subAllF n (newPrev (newPrev prev pre) cns) rest
          (searchFrom_rxBlank3_rest hsf)
      simp only [List.append_assoc, List.cons_append, List.nil_append] at hO
      rcases List.append_eq_append_iff.mp hO with ⟨m, hu, hX⟩ | ⟨m, hpre, hv⟩
      · cases m with
        | nil =>
          rw [List.nil_append] at hX
          injection hX with hX1 hX2
          cases w1 with
          | nil =>
            rw [List.nil_append] at hX2
            injection hX2 with hX3 hX4
            exact hnoWs ⟨w2, v, hX4, h2⟩
          | cons c w1' =>
            rw [List.cons_append] at hX2
            injection hX2 with hX3 hX4
            exact (h1 c (List.mem_cons_self _ _)).2 hX3.symm
        | cons c m' =>
          rw [List.cons_append] at hX
          injection hX with hX1 hX2
          cases m' with
          | nil =>
            rw [List.nil_append] at hX2
            injection hX2 with hX3 hX4
            exact hnoWs ⟨w1, w2 ++ '\n' :: v, hX4, h1⟩
          | cons c2 m'' =>
            rw [List.cons_append] at hX2
            injection hX2 with hX3 hX4
            exact hnoBad ⟨m'', w1, w2, v, hX4, h1, h2⟩
      · cases m with
        | nil =>
          rw [List.nil_append] at hv
          injection hv with hv1 hv2
          cases w1 with
          | nil =>
            rw [List.nil_append] at hv2
            injection hv2 with hv3 hv4
            exact hnoWs ⟨w2, v, hv4.symm, h2⟩
          | cons c w1' =>
            rw [List.cons_append] at hv2
            injection hv2 with hv3 hv4
            exact (h1 c (List.mem_cons_self _ _)).2 hv3
        | cons c m' =>
          rw [List.cons_append] at hv
          injection hv with hv1 hv2
          subst hv1
          have hlt : u.length < pre.length := by
            rw [hpre]
            simp only [List.length_append, List.length_cons]
            omega
          rcases List.append_eq_append_iff.mp hv2 with
            ⟨m2, hm', hX2⟩ | ⟨m2, hw1, hX2⟩
          · cases m2 with
            | nil =>
              rw [List.append_nil] at hm'
              subst hm'
              refine absurd (searchFrom_leftmost hsf u
                ('\n' :: (m' ++ '\n' :: (a2 ++ '\n' :: (b2 ++ '\n' :: (n2 ++ rest)))))
                ?_ hlt) (mtch_rxBlank3_hit (fun c hc => (h1 c hc).1) ha2)
              rw [hdec]
              simp [hpre, hcns, List.append_assoc]
            | cons c2 m2' =>
              rw [List.cons_append] at hX2
              injection hX2 with hX3 hX4
              subst hX3
              rcases List.append_eq_append_iff.mp hX4 with
                ⟨m3, hm2', hX5⟩ | ⟨m3, hw2, hX5⟩
              · cases m3 with
                | nil =>
                  rw [List.append_nil] at hm2'
                  subst hm2'
                  refine absurd (searchFrom_leftmost hsf u
                    ('\n' :: (w1 ++ '\n' :: (m2' ++ '\n' ::
                      (a2 ++ '\n' :: (b2 ++ '\n' :: (n2 ++ rest))))))
                    ?_ hlt) (mtch_rxBlank3_hit (fun c hc => (h1 c hc).1)
                      (fun c hc => (h2 c hc).1))
                  rw [hdec]
                  simp [hpre, hm', hcns, List.append_assoc]
                | cons c3 m3' =>
                  rw [List.cons_append] at hX5
                  injection hX5 with hX6 hX7
                  subst hX6
                  refine absurd (searchFrom_leftmost hsf u
                    ('\n' :: (w1 ++ '\n' :: (w2 ++ '\n' ::
                      (m3' ++ '\n' :: (a2 ++ '\n' :: (b2 ++ '\n' :: (n2 ++ rest)))))))
                    ?_ hlt) (mtch_rxBlank3_hit (fun c hc => (h1 c hc).1)
                      (fun c hc => (h2 c hc).1))
                  rw [hdec]
                  simp [hpre, hm', hm2', hcns, List.append_assoc]
              · cases m3 with
                | nil =>
                  rw [List.append_nil] at hw2
                  subst hw2
                  refine absurd (searchFrom_leftmost hsf u
                    ('\n' :: (w1 ++ '\n' :: (w2 ++ '\n' ::
                      (a2 ++ '\n' :: (b2 ++ '\n' :: (n2 ++ rest))))))
                    ?_ hlt) (mtch_rxBlank3_hit (fun c hc => (h1 c hc).1)
                      (fun c hc => (h2 c hc).1))
                  rw [hdec]
                  simp [hpre, hm', hcns, List.append_assoc]
                | cons c3 m3'' =>
                  rw [List.cons_append] at hX5
                  injection hX5 with hX6 hX7
                  have : c3 ∈ w2 := by
                    rw [hw2]
                    exact List.mem_append.mpr (Or.inr (List.mem_cons_self _ _))
                  exact (h2 c3 this).2 hX6.symm
          · cases m2 with
            | nil =>
              rw [List.append_nil] at hw1
              subst hw1
              refine absurd (searchFrom_leftmost hsf u
                ('\n' :: (w1 ++ '\n' :: (a2 ++ '\n' :: (b2 ++ '\n' :: (n2 ++ rest)))))
                ?_ hlt) (mtch_rxBlank3_hit (fun c hc => (h1 c hc).1) ha2)
              rw [hdec]
              simp [hpre, hcns, List.append_assoc]
            | cons c2 m2'' =>
              rw [List.cons_append] at hX2
              injection hX2 with hX3 hX4
              have : c2 ∈ w1 := by
                rw [hw1]
                exact List.mem_append.mpr (Or.inr (List.mem_cons_self _ _))
              exact (h1 c2 this).2 hX3.symm

theorem subAllT_rxBlank3_noBad (t : Str) :
    ¬ BadM (subAllT rxBlank3 ['\n', '\n'] t) := by
  rw [subAllT]
  exact subAllF_rxBlank3_noBad (t.length + 1) none t (Nat.lt_succ_self _)

theorem normLine_nil : normLine [] = [] := by decide


/-- The table-marker characters of `clean_text`'s per-line check. -/
def tmarkB (c : Char) : Bool :=
  c = '|' || c = '─' || c = '│' || c = '┌' || c = '┐' || c = '└' || c = '┘'

theorem tmark_not_ws {c : Char} (h : tmarkB c = true) : wsB c = false := by
  rw [tmarkB] at h
  simp only [Bool.or_eq_true, decide_eq_true_eq] at h
  rcases h with ((((((h | h) | h) | h) | h) | h) | h) <;> subst h <;> decide

theorem isTableLine_mem {z : Str} (h : isTableLine z = true) :
    ∃ c ∈ z, tmarkB c = true := by
  rw [isTableLine] at h
  simp only [Bool.or_eq_true] at h
  rcases h with ((((((h | h) | h) | h) | h) | h) | h) <;>
    exact ⟨_, List.elem_iff.mp h, by decide⟩

theorem isTableLine_of_mem {z : Str} {c : Char} (hc : c ∈ z)
    (hm : tmarkB c = true) : isTableLine z = true := by
  rw [tmarkB] at hm
  simp only [Bool.or_eq_true, decide_eq_true_eq] at hm
  rw [isTableLine]
  simp only [Bool.or_eq_true]
  simp only [List.elem_iff]
  rcases hm with ((((((h | h) | h) | h) | h) | h) | h) <;> subst h <;> tauto

/-- Right-trim: drop trailing whitespace. -/
def rdropWs (z : Str) : Str := (z.reverse.dropWhile wsB).reverse

theorem mem_dropWhile_of_not {p : Char → Bool} {l : Str} {c : Char}
    (hc : c ∈ l) (hp : p c = false) : c ∈ l.dropWhile p := by
  rcases List.mem_append.mp
      (by rw [List.takeWhile_append_dropWhile p l]; exact hc) with h | h
  · exact absurd (List.mem_takeWhile_imp h) (by simp [hp])
  · exact h

theorem normFixed_head {l : Str} (hnt : isTableLine l = false)
    (hfix : normLine l = l) : l.dropWhile wsB = l := by
  have hps : pyStrip (subAllT rxSpaceTab [' '] l) = l := by
    have h2 : normLine l = pyStrip (subAllT rxSpaceTab [' '] l) := by
      rw [normLine, if_neg (by rw [hnt]; exact Bool.false_ne_true)]
    rw [← h2]
    exact hfix
  cases hl : l with
  | nil => rfl
  | cons c l' =>
    have hcw : wsB c = false := pyStrip_head_false (hl ▸ hps)
    rw [List.dropWhile_cons_of_neg (by simp [hcw])]

/-- A normalization-fixed line stays fixed after a left trim. -/
theorem normFixed_ldrop {l : Str} (hfix : normLine l = l) :
    normLine (l.dropWhile wsB) = l.dropWhile wsB := by
  cases ht : isTableLine l with
  | true =>
    obtain ⟨c, hc, hm⟩ := isTableLine_mem ht
    have hcd : c ∈ l.dropWhile wsB := mem_dropWhile_of_not hc (tmark_not_ws hm)
    rw [normLine, if_pos (isTableLine_of_mem hcd hm)]
  | false =>
    rw [normFixed_head ht hfix]
    exact hfix

/-- A normalization-fixed line stays fixed after a right trim. -/
theorem normFixed_rdrop {l : Str} (hfix : normLine l = l) :
    normLine (rdropWs l) = rdropWs l := by
  cases ht : isTableLine l with
  | true =>
    obtain ⟨c, hc, hm⟩ := isTableLine_mem ht
    have hcr : c ∈ l.reverse.dropWhile wsB :=
      mem_dropWhile_of_not (List.mem_reverse.mpr hc) (tmark_not_ws hm)
    have hcd : c ∈ rdropWs l := by
      rw [rdropWs]
      exact List.mem_reverse.mpr hcr
    rw [normLine, if_pos (isTableLine_of_mem hcd hm)]
  | false =>
    have hps : pyStrip (subAllT rxSpaceTab [' '] l) = l := by
      have h2 : normLine l = pyStrip (subAllT rxSpaceTab [' '] l) := by
        rw [normLine, if_neg (by rw [ht]; exact Bool.false_ne_true)]
      rw [← h2]
      exact hfix
    have hrd : l.reverse.dropWhile wsB = l.reverse := by
      rw [← hps, show (pyStrip (subAllT rxSpaceTab [' '] l)).reverse =
        ((subAllT rxSpaceTab [' '] l).dropWhile wsB).reverse.dropWhile wsB from by
          rw [pyStrip, List.reverse_reverse]]
      exact dropWhile_dropWhile wsB _
    rw [rdropWs, hrd, List.reverse_reverse]
    exact hfix

theorem rdropWs_append_nl_pos {A l : Str} {c : Char} {lr : Str}
    (h : l.reverse.dropWhile wsB = c :: lr) :
    rdropWs (A ++ '\n' :: l) = A ++ '\n' :: rdropWs l := by
  have h1 : (l.reverse ++ ['\n']).dropWhile wsB = c :: (lr ++ ['\n']) := by
    rw [List.dropWhile_append, h]
    simp only [List.isEmpty_cons, Bool.false_eq_true, if_false, List.cons_append]
  have h2 : ((l.reverse ++ ['\n']) ++ A.reverse).dropWhile wsB =
      (c :: (lr ++ ['\n'])) ++ A.reverse := by
    rw [List.dropWhile_append, h1]
    simp only [List.isEmpty_cons, Bool.false_eq_true, if_false]
  rw [rdropWs, List.reverse_append, List.reverse_cons, h2, rdropWs, h]
  simp [List.append_assoc]

theorem rdropWs_append_nl_neg {A l : Str} (h : l.reverse.dropWhile wsB = []) :
    rdropWs (A ++ '\n' :: l) = rdropWs A := by
  have h1 : (l.reverse ++ ['\n']).dropWhile wsB = [] := by
    rw [List.dropWhile_append, h]
    simp only [List.isEmpty_nil, if_true]
    rfl
  have h2 : ((l.reverse ++ ['\n']) ++ A.reverse).dropWhile wsB =
      A.reverse.dropWhile wsB := by
    rw [List.dropWhile_append, h1]
    simp only [List.isEmpty_nil, if_true]
  rw [rdropWs, List.reverse_append, List.reverse_cons, h2]
  rfl

/-- Lines of the left-trimmed join: each is normalization-fixed when the
original lines are. -/
theorem lines_ldrop_joinNl :
    ∀ (M : List Str), (∀ l ∈ M, ∀ c ∈ l, c ≠ '\n') →
      (∀ l ∈ M, normLine l = l) →
      ∀ l' ∈ splitNl ((joinNl M).dropWhile wsB),
        normLine l' = l' ∧ ∀ c ∈ l', c ≠ '\n' := by
  intro M
  induction M with
  | nil =>
    intro hnl hfix l' hl'
    rw [show ((joinNl ([] : List Str)).dropWhile wsB) = [] from rfl,
      show splitNl ([] : Str) = [[]] from rfl] at hl'
    rw [List.mem_singleton.mp hl']
    exact ⟨normLine_nil, fun c hc => absurd hc (List.not_mem_nil c)⟩
  | cons l M' ih =>
    intro hnl hfix l' hl'
    have hlnl : ∀ c ∈ l, c ≠ '\n' := hnl l (List.mem_cons_self _ _)
    have hldnl : ∀ c ∈ l.dropWhile wsB, c ≠ '\n' :=
      fun c hc => hlnl c ((List.dropWhile_sublist wsB).subset hc)
    cases M' with
    | nil =>
      rw [joinNl_single] at hl'
      rw [splitNl_of_nlFree hldnl] at hl'
      rw [List.mem_singleton.mp hl']
      exact ⟨normFixed_ldrop (hfix l (List.mem_cons_self _ _)), hldnl⟩
    | cons m2 M'' =>
      rw [joinNl_cons (List.cons_ne_nil m2 M''), List.dropWhile_append] at hl'
      cases hld : l.dropWhile wsB with
      | nil =>
        rw [hld] at hl'
        rw [show (([] : Str).isEmpty) = true from rfl, if_pos rfl,
          List.dropWhile_cons_of_pos (by decide)] at hl'
        exact ih (fun x hx => hnl x (List.mem_cons_of_mem _ hx))
          (fun x hx => hfix x (List.mem_cons_of_mem _ hx)) l' hl'
      | cons c lt =>
        rw [hld] at hl'
        rw [show ((c :: lt).isEmpty) = false from rfl] at hl'
        rw [if_neg (by exact Bool.false_ne_true)] at hl'
        rw [← hld] at hl'
        rw [splitNl_append_nl hldnl] at hl'
        rcases List.mem_cons.mp hl' with rfl | hl'
        · exact ⟨normFixed_ldrop (hfix l (List.mem_cons_self _ _)), hldnl⟩
        · rw [splitNl_joinNl (List.cons_ne_nil m2 M'')
            (fun x hx => hnl x (List.mem_cons_of_mem _ hx))] at hl'
          exact ⟨hfix l' (List.mem_cons_of_mem _ hl'),
            hnl l' (List.mem_cons_of_mem _ hl')⟩

/-- Lines of the right-trimmed join: each is normalization-fixed when the
original lines are. -/
theorem lines_rdrop_joinNl :
    ∀ (M : List Str), (∀ l ∈ M, ∀ c ∈ l, c ≠ '\n') →
      (∀ l ∈ M, normLine l = l) →
      ∀ l' ∈ splitNl (rdropWs (joinNl M)),
        normLine l' = l' ∧ ∀ c ∈ l', c ≠ '\n' := by
  intro M
  induction M using List.reverseRecOn with
  | nil =>
    intro hnl hfix l' hl'
    rw [show rdropWs (joinNl ([] : List Str)) = [] from rfl,
      show splitNl ([] : Str) = [[]] from rfl] at hl'
    rw [List.mem_singleton.mp hl']
    exact ⟨normLine_nil, fun c hc => absurd hc (List.not_mem_nil c)⟩
  | append_singleton M0 l ih =>
    intro hnl hfix l' hl'
    have hlmem : l ∈ M0 ++ [l] :=
      List.mem_append.mpr (Or.inr (List.mem_singleton.mpr rfl))
    have hlnl : ∀ c ∈ l, c ≠ '\n' := hnl l hlmem
    have hrdnl : ∀ c ∈ rdropWs l, c ≠ '\n' := by
      intro c hc
      rw [rdropWs] at hc
      exact hlnl c (List.mem_reverse.mp
        ((List.dropWhile_sublist wsB).subset (List.mem_reverse.mp hc)))
    cases hM0 : M0 with
    | nil =>
      rw [hM0, List.nil_append, joinNl_single] at hl'
      rw [splitNl_of_nlFree hrdnl] at hl'
      rw [List.mem_singleton.mp hl']
      exact ⟨normFixed_rdrop (hfix l hlmem), hrdnl⟩
    | cons m2 M0' =>
      rw [joinNl_append (by rw [hM0]; exact List.cons_ne_nil m2 M0')
        (List.cons_ne_nil l []), joinNl_single] at hl'
      cases hld : l.reverse.dropWhile wsB with
      | nil =>
        rw [rdropWs_append_nl_neg hld] at hl'
        exact ih (fun x hx => hnl x (List.mem_append.mpr (Or.inl hx)))
          (fun x hx => hfix x (List.mem_append.mpr (Or.inl hx))) l' hl'
      | cons c lr =>
        rw [rdropWs_append_nl_pos hld] at hl'
        rw [show joinNl M0 ++ '\n' :: rdropWs l =
            joinNl (M0 ++ [rdropWs l]) from by
          rw [joinNl_append (by rw [hM0]; exact List.cons_ne_nil m2 M0')
            (List.cons_ne_nil (rdropWs l) []), joinNl_single]] at hl'
        rw [splitNl_joinNl (by rw [hM0]; exact List.cons_ne_nil m2 (M0' ++ [rdropWs l]))
          ?_] at hl'
        · rcases List.mem_append.mp hl' with hl2 | hl2
          · exact ⟨hfix l' (List.mem_append.mpr (Or.inl hl2)),
              hnl l' (List.mem_append.mpr (Or.inl hl2))⟩
          · rw [List.mem_singleton.mp hl2]
            exact ⟨normFixed_rdrop (hfix l hlmem), hrdnl⟩
        · intro x hx
          rcases List.mem_append.mp hx with hx2 | hx2
          · exact hnl x (List.mem_append.mpr (Or.inl hx2))
          · rw [List.mem_singleton.mp hx2]
            exact hrdnl

theorem subAllT_chars {r : Rx} {repl s : Str} {c : Char}
    (h : c ∈ subAllT r repl s) : c ∈ s ∨ c ∈ repl := by
  rw [subAllT] at h
  exact subAllF_chars _ h

theorem lines_pyStrip_joinNl (M : List Str)
    (hnl : ∀ l ∈ M, ∀ c ∈ l, c ≠ '\n') (hfix : ∀ l ∈ M, normLine l = l) :
    ∀ l' ∈ splitNl (pyStrip (joinNl M)), normLine l' = l' := by
  intro l' hl'
  have hmid := lines_ldrop_joinNl M hnl hfix
  have hrw : pyStrip (joinNl M) =
      rdropWs (joinNl (splitNl ((joinNl M).dropWhile wsB))) := by
    rw [joinNl_splitNl]
    rfl
  rw [hrw] at hl'
  exact (lines_rdrop_joinNl (splitNl ((joinNl M).dropWhile wsB))
    (splitNl_nlFree _) (fun l hl => (hmid l hl).1) l' hl').1

theorem subAllT_digitless_pageDigits {t : Str}
    (h : ∀ c ∈ t, digitB c = false) : subAllT rxPageDigits [] t = t := by
  rw [subAllT]
  exact subAllF_no_match (searchFrom_eq_none rxPageDigits_has_digit h)

theorem subAllT_digitless_pageWord {t : Str}
    (h : ∀ c ∈ t, digitB c = false) : subAllT rxPageWord [] t = t := by
  rw [subAllT]
  exact subAllF_no_match (searchFrom_eq_none rxPageWord_has_digit h)

theorem cleanTextL_chars {t : Str} {c : Char} (hc : c ∈ cleanTextL t) :
    c ∈ t ∨ c = ' ' ∨ c = '\n' := by
  rw [cleanTextL] at hc
  have h1 := pyStrip_subset hc
  rcases mem_joinNl h1 with ⟨l, hl, hcl⟩ | rfl
  · rcases List.mem_map.mp hl with ⟨l0, hl0, rfl⟩
    rcases normLine_chars hcl with hcl0 | rfl
    · have h3 := mem_splitNl_subset hl0 hcl0
      rcases subAllT_chars h3 with h4 | h4
      · rcases subAllT_chars h4 with h5 | h5
        · rcases subAllT_chars h5 with h6 | h6
          · exact Or.inl h6
          · cases h6
        · cases h5
      · rcases List.mem_cons.mp h4 with rfl | h5
        · exact Or.inr (Or.inr rfl)
        · rcases List.mem_singleton.mp h5 with rfl
          exact Or.inr (Or.inr rfl)
    · exact Or.inr (Or.inl rfl)
  · exact Or.inr (Or.inr rfl)

/-- The idempotence of `clean_text` on digit-free input, at the
character-list level. -/
theorem cleanTextL_idem {t : Str} (h : ∀ c ∈ t, digitB c = false) :
    cleanTextL (cleanTextL t) = cleanTextL t := by
  have hform : cleanTextL t = pyStrip (joinNl ((splitNl
      (subAllT rxBlank3 ['\n', '\n'] (subAllT rxPageWord []
        (subAllT rxPageDigits [] t)))).map normLine)) := rfl
  have hdout : ∀ c ∈ cleanTextL t, digitB c = false := by
    intro c hc
    rcases cleanTextL_chars hc with h1 | h1 | h1
    · exact h c h1
    · rw [h1]
      decide
    · rw [h1]
      decide
  have hnlM : ∀ l ∈ (splitNl (subAllT rxBlank3 ['\n', '\n']
      (subAllT rxPageWord [] (subAllT rxPageDigits [] t)))).map normLine,
      ∀ c ∈ l, c ≠ '\n' := by
    intro l hl c hc
    rcases List.mem_map.mp hl with ⟨l0, hl0, rfl⟩
    rcases normLine_chars hc with hc0 | rfl
    · exact splitNl_nlFree _ l0 hl0 c hc0
    · decide
  have hfixM : ∀ l ∈ (splitNl (subAllT rxBlank3 ['\n', '\n']
      (subAllT rxPageWord [] (subAllT rxPageDigits [] t)))).map normLine,
      normLine l = l := by
    intro l hl
    rcases List.mem_map.mp hl with ⟨l0, hl0, rfl⟩
    exact normLine_idem l0
  have hfixlines : ∀ l' ∈ splitNl (cleanTextL t), normLine l' = l' := by
    intro l' hl'
    rw [hform] at hl'
    exact lines_pyStrip_joinNl _ hnlM hfixM l' hl'
  have hBadOut : ¬ BadM (cleanTextL t) := by
    intro hB
    rw [hform] at hB
    exact subAllT_rxBlank3_noBad _ (badM_down hB)
  have hp3 : subAllT rxBlank3 ['\n', '\n'] (cleanTextL t) = cleanTextL t := by
    rw [subAllT]
    exact subAllF_no_match (searchFrom_rxBlank3_none hBadOut)
  have hform2 : cleanTextL (cleanTextL t) = pyStrip (joinNl ((splitNl
      (subAllT rxBlank3 ['\n', '\n'] (subAllT rxPageWord []
        (subAllT rxPageDigits [] (cleanTextL t))))).map normLine)) := rfl
  rw [hform2, subAllT_digitless_pageDigits hdout,
    subAllT_digitless_pageWord hdout, hp3]
  have hmap : (splitNl (cleanTextL t)).map normLine = splitNl (cleanTextL t) :=
    (List.map_congr_left (fun l hl => hfixlines l hl)).trans
      (List.map_id _)
  rw [hmap, joinNl_splitNl, hform, pyStrip_idem]

theorem string_mk_data (l : Str) : (String.mk l).data = l := rfl

/-- C8 (amended).  `clean_text` is not idempotent in general (the
counterexample above exposes a page-number line only on the second pass),
but on inputs containing no decimal digit it is: neither page-number pass
can fire, the blank-line pass leaves no new collapsible blank group behind,
and per-line normalization is idempotent, so a second run returns its input
unchanged. -/
theorem c8_clean_text_idempotent_on_digit_free (s : String)
    (h : ∀ c ∈ s.data, digitB c = false) :
    clean_text (clean_text s) = clean_text s := by
  rw [clean_text, clean_text, string_mk_data]
  exact congrArg String.mk (cleanTextL_idem h)

/-- Witness for C8 (amended) at the digit-free input `"a b\n\nc"`. -/
theorem c8_clean_text_idempotent_on_digit_free_witness :
    (∀ c ∈ ("a b\n\nc" : String).data, digitB c = false) ∧
      clean_text (clean_text "a b\n\nc") = clean_text "a b\n\nc" :=
  ⟨by decide, c8_clean_text_idempotent_on_digit_free "a b\n\nc" (by decide)⟩
